import Mathlib

/-!
Shallow embedding of the rust-lz-fear raw LZ4 codec: the raw block decoder
(`src/raw/decompress.rs`), the raw block encoder (`src/raw/compress/mod.rs`)
and the per-block emission step of the frame writer
(`src/framed/compress.rs`), together with theorems settling the
specification claims.

Modelling conventions:
* Bytes are `Nat`s; theorems whose proof depends on values being bytes carry
  an explicit `∀ b ∈ l, b < 256` hypothesis.
* The build target is 64-bit little-endian (as in the reference builds of the
  crate): `usize` is 8 bytes read little-endian, and the little-endian hash
  constant `889523592379` is used.
* `usize` arithmetic that cannot overflow in reachable states is modelled on
  `Nat`.  The one subtraction of possibly-wrapping values, the encoder's
  `cursor - candidate <= 0xFFFF` test, is modelled by the equivalent guard
  `candidate ≤ cursor ∧ cursor - candidate ≤ 0xFFFF`: stored table values are
  at most `u32::MAX`, so in release mode the wrapped difference can pass the
  `<= 0xFFFF` test only when `candidate ≤ cursor`.
* Where Rust uses a `loop`/`while` or non-structural recursion, the Lean
  function takes an explicit fuel argument and the top-level wrapper passes
  fuel that provably suffices, keeping every definition structurally
  recursive and kernel-evaluable.
* `&mut Vec<u8>` output parameters become a returned `List Nat`; a Rust
  `Result<(), DecodeError>` together with its `&mut` output buffer becomes
  `List Nat × Option DecodeError` (the buffer in the state the function
  leaves it, plus the error if one was thrown).
-/

namespace LZFear

/-- The decoder error type `DecodeError` of `src/raw/decompress.rs`. -/
inductive DecodeError where
  | UnexpectedEnd
  | MemoryLimitExceeded
  | ZeroDeduplicationOffset
  | InvalidDeduplicationOffset
deriving DecidableEq, Repr

/-- The summing loop inside `read_lsic`: keep reading and adding while the
byte read is `0xFF`; a read past the end of the input is `UnexpectedEnd`,
modelled as `none`. -/
def read_lsic_go : List Nat → Nat → Option (Nat × List Nat)
  | [], _ => none
  | more :: rest, value =>
      if more = 0xFF then read_lsic_go rest (value + more)
      else some (value + more, rest)

/-- `read_lsic` from `src/raw/decompress.rs`: decode the LZ4 LSIC varint
starting from the 4-bit `initial` value taken from the token. -/
def read_lsic (initial : Nat) (input : List Nat) : Option (Nat × List Nat) :=
  if initial = 0xF then read_lsic_go input 0xF else some (initial, input)

/-- The byte-wise reference copy stated by the spec: appending `match_len`
bytes whose `i`-th element equals the byte at position
`old_len - offset + i` of the *growing* output. -/
def dedup_spec (offset : Nat) : Nat → List Nat → List Nat
  | 0, output => output
  | n + 1, output =>
      dedup_spec offset n (output ++ [output.getD (output.length - offset) 0])

/-- The 16-byte staging buffer of `copy_overlapping`'s small-offset fast
path: `buf.chunks_mut(offset)` each filled with the `offset` bytes right
before the match; byte `k` of the buffer is `pattern[k % offset]`
(the pattern length always divides 16 there). -/
def staging16 (pattern : List Nat) : List Nat :=
  (List.range 16).map fun k => pattern.getD (k % pattern.length) 0

/-- Tiling the staging buffer over the `match_len` appended bytes:
`output[old_len..].chunks_mut(16)` each receives `buf[..target.len()]`,
so the appended byte `i` is `buf[i % 16]`. -/
def splat16 (buf : List Nat) (match_len : Nat) : List Nat :=
  (List.range match_len).map fun i => buf.getD (i % 16) 0

/-- The slowest path of `copy_overlapping`: a `for i in 0..match_len` loop
pushing `output[old_len - offset + i]`, reading from the growing buffer. -/
def push_copy (old_len offset : Nat) : Nat → Nat → List Nat → List Nat
  | _, 0, output => output
  | i, n + 1, output =>
      push_copy old_len offset (i + 1) n
        (output ++ [output.getD (old_len - offset + i) 0])

/-- `copy_overlapping` from `src/raw/decompress.rs`.  The `fuel` argument
only bounds the recursion depth of the prefix branch (which is at most two
calls deep: the recursive call has an empty prefix and never recurses
again); the wrapper passes `match_len + 1`, which always suffices. -/
def copy_overlapping_f :
    Nat → Nat → Nat → List Nat → List Nat → List Nat × Option DecodeError
  | 0, _, _, _, output => (output, some .UnexpectedEnd)
  | fuel + 1, offset, match_len, pfx, output =>
    let old_len := output.length
    if offset = 0 then (output, some .ZeroDeduplicationOffset)
    else if old_len < offset then
      -- need prefix for this
      let prefix_needed := offset - old_len
      if pfx.length < prefix_needed then
        (output, some .InvalidDeduplicationOffset)
      else
        let how_many_bytes_from_prefix := min prefix_needed match_len
        let output :=
          output ++ (pfx.drop (pfx.length - prefix_needed)).take
            how_many_bytes_from_prefix
        let remaining_len := match_len - how_many_bytes_from_prefix
        if remaining_len ≠ 0 then
          -- offset stays the same: the cursor into the prefix moved forward
          copy_overlapping_f fuel offset remaining_len [] output
        else (output, none)
    else if offset = 1 then
      -- fastpath: memset if we repeat the same byte forever
      (output ++ List.replicate match_len (output.getD (old_len - 1) 0), none)
    else if match_len ≤ offset then
      -- fastpath: nonoverlapping copy from output[old_len - offset..]
      (output ++ (output.drop (old_len - offset)).take match_len, none)
    else if offset = 2 ∨ offset = 4 ∨ offset = 8 then
      -- fastpath: overlapping but small, via the 16-byte staging buffer
      let buf := staging16 ((output.drop (old_len - offset)).take offset)
      (output ++ splat16 buf match_len, none)
    else
      -- slowest path: copy single bytes
      (push_copy old_len offset 0 match_len output, none)

/-- `copy_overlapping` with its recursion fuel filled in. -/
def copy_overlapping (offset match_len : Nat) (pfx output : List Nat) :
    List Nat × Option DecodeError :=
  copy_overlapping_f (match_len + 1) offset match_len pfx output

/-- The decode loop of `decompress_raw`.  One iteration per token byte; each
iteration consumes at least the token, so fuel `input.length + 1` always
suffices.  Conventions: end of input where the token would be is clean
termination; a failing 2-byte offset read consumes the (at most one)
remaining byte, after which the token read hits the end of input and the
loop terminates cleanly (the behaviour of the default `read_exact` used by
`Cursor`); a literal run longer than the remaining input leaves the output
resized (`output.resize(pre + literal_length, 0)` happens before
`read_exact` fails). -/
def decompress_loop :
    Nat → List Nat → List Nat → List Nat → Nat → List Nat × Option DecodeError
  | 0, _, _, output, _ => (output, some .UnexpectedEnd)
  | fuel + 1, input, pfx, output, output_limit =>
    match input with
    | [] => (output, none)
    | token :: rest =>
      match read_lsic (token >>> 4) rest with
      | none => (output, some .UnexpectedEnd)
      | some (literal_length, rest) =>
        if rest.length < literal_length then
          (output ++ rest ++ List.replicate (literal_length - rest.length) 0,
            some .UnexpectedEnd)
        else
          let output := output ++ rest.take literal_length
          let rest := rest.drop literal_length
          match rest with
          | b0 :: b1 :: rest =>
            let offset := b0 + 256 * b1
            match read_lsic (token &&& 0xF) rest with
            | none => (output, some .UnexpectedEnd)
            | some (extra, rest) =>
              let match_len := 4 + extra
              if output_limit < output.length + match_len then
                (output, some .MemoryLimitExceeded)
              else
                match copy_overlapping offset match_len pfx output with
                | (output, none) =>
                    decompress_loop fuel rest pfx output output_limit
                | (output, some e) => (output, some e)
          | _ => (output, none)

/-- `decompress_raw` from `src/raw/decompress.rs`: decompress an
LZ4-compressed block, appending to `output`, with lookback into `pfx` for
offsets reaching before the start of `output`. -/
def decompress_raw (input pfx output : List Nat) (output_limit : Nat) :
    List Nat × Option DecodeError :=
  decompress_loop (input.length + 1) input pfx output output_limit

/-! ### The raw encoder (`src/raw/compress/mod.rs`) -/

def HASHLOG : Nat := 12
def MINMATCH : Nat := 4

/-- `usize::from_le_bytes` on the first 8 bytes (64-bit little-endian
target). -/
def read_usize (b : List Nat) : Nat :=
  b.getD 0 0 + 256 * (b.getD 1 0 + 256 * (b.getD 2 0 + 256 * (b.getD 3 0 +
    256 * (b.getD 4 0 + 256 * (b.getD 5 0 + 256 * (b.getD 6 0 +
    256 * b.getD 7 0))))))

/-- `usize::trailing_zeros`, with fuel 64 for the 64 bits of the target's
word size; `trailing_zeros 64 0 = 64` exactly as in Rust. -/
def trailing_zeros : Nat → Nat → Nat
  | 0, _ => 0
  | fuel + 1, x => if x % 2 = 1 then 0 else 1 + trailing_zeros fuel (x / 2)

/-- `count_matching_bytes`: compare word-sized (8-byte) chunks; on a
mismatching chunk, count the matching bytes via the trailing zeros of the
XOR (little-endian); once fewer than 8 bytes remain on either side, compare
the remaining bytes one at a time. -/
def count_matching_bytes : List Nat → List Nat → Nat
  | a0 :: a1 :: a2 :: a3 :: a4 :: a5 :: a6 :: a7 :: arest,
    b0 :: b1 :: b2 :: b3 :: b4 :: b5 :: b6 :: b7 :: brest =>
    let a := read_usize [a0, a1, a2, a3, a4, a5, a6, a7]
    let b := read_usize [b0, b1, b2, b3, b4, b5, b6, b7]
    if a = b then 8 + count_matching_bytes arest brest
    else trailing_zeros 64 (a ^^^ b) / 8
  | a, b => ((a.zip b).takeWhile fun p => p.1 == p.2).length

/-- `hash_for_u32` on a 64-bit little-endian platform: read 8 bytes (or 0
near the end of the input), then `((v << 24).wrapping_mul(889523592379))
>> (64 - HASHLOG)`. -/
def hash_for_u32 (input : List Nat) : Nat :=
  let v := if 8 ≤ input.length then read_usize input else 0
  (((v <<< 24) % 2 ^ 64 * 889523592379) % 2 ^ 64) >>> (64 - HASHLOG)

/-- `U32Table`: `2^HASHLOG` slots of offsets plus the logical base offset.
The slot array is modelled as a total function from hash values. -/
structure U32Table where
  dict : Nat → Nat
  offset : Nat

def U32Table.payload_size_limit : Nat := 2 ^ 32 - 1

/-- `U32Table::default()`: all slots zero, base offset zero. -/
def U32Table.default : U32Table := ⟨fun _ => 0, 0⟩

/-- `EncoderTable::replace` for `U32Table`: swap the slot selected by the
hash of the bytes at `offset` with `offset + base`, returning the old value
saturating-subtracted by the base. -/
def U32Table.replace (t : U32Table) (input : List Nat) (offset : Nat) :
    Nat × U32Table :=
  let o := offset + t.offset
  let h := hash_for_u32 (input.drop offset)
  (t.dict h - t.offset, ⟨fun h' => if h' = h then o else t.dict h', t.offset⟩)

/-- The backtrack count: the length of the common reversed run of
`input[..cursor]` and `input[..candidate]`, capped at `max_backtrack`. -/
def backtrack_count (input : List Nat) (cursor candidate max_backtrack : Nat) :
    Nat :=
  ((((input.take cursor).reverse.zip (input.take candidate).reverse).take
    max_backtrack).takeWhile fun p => p.1 == p.2).length

/-- `write_lsic_head`: or the saturated 4-bit value into the token at
`shift`. -/
def write_lsic_head (token shift value : Nat) : Nat :=
  token ||| (min value 0xF <<< shift)

/-- The two subtracting loops of `write_lsic_tail` fused into one recursion
(the `4 * 0xFF` branch can never fire again once the value has dropped below
`4 * 0xFF`, so the fused form emits the same bytes).  A `u32` write of
`u32::MAX` is four `0xFF` bytes on any endianness.  Fuel `value + 1`
suffices since every iteration removes at least `0xFF`. -/
def write_lsic_tail_go : Nat → Nat → List Nat
  | 0, _ => []
  | fuel + 1, value =>
    if 4 * 0xFF ≤ value then
      0xFF :: 0xFF :: 0xFF :: 0xFF :: write_lsic_tail_go fuel (value - 4 * 0xFF)
    else if 0xFF ≤ value then 0xFF :: write_lsic_tail_go fuel (value - 0xFF)
    else [value]

/-- `write_lsic_tail`: nothing for values < 15, else `value - 15` encoded as
runs of `0xFF` plus a final residue byte. -/
def write_lsic_tail (value : Nat) : List Nat :=
  if value < 0xF then [] else write_lsic_tail_go (value + 1) (value - 0xF)

/-- A byte sink: `cap = none` models an ordinary growable `Vec` writer,
`cap = some c` models `NoPartialWrites` over a buffer with `c` remaining
bytes (`src/framed/compress.rs`), which refuses a write that does not fit
entirely. -/
structure Sink where
  data : List Nat
  cap : Option Nat

/-- One `Write::write_all` on the sink. -/
def Sink.write (s : Sink) (bytes : List Nat) : Option Sink :=
  match s.cap with
  | none => some ⟨s.data ++ bytes, none⟩
  | some c =>
    if c < bytes.length then none
    else some ⟨s.data ++ bytes, some (c - bytes.length)⟩

/-- `write_group`: token byte, extended literal length, literal bytes,
2-byte little-endian offset, extended match length. -/
def write_group (s : Sink) (literal : List Nat) (dup_offset dup_extra : Nat) :
    Option Sink :=
  let literal_len := literal.length
  let token := write_lsic_head (write_lsic_head 0 4 literal_len) 0 dup_extra
  s.write [token] >>= fun s =>
  s.write (write_lsic_tail literal_len) >>= fun s =>
  s.write literal >>= fun s =>
  s.write [dup_offset % 256, dup_offset / 256 % 256] >>= fun s =>
  s.write (write_lsic_tail dup_extra)

/-- The byte stream of one literal+duplicate group, as `write_group` lays it
out: token, extended literal length, literals, 2-byte little-endian offset,
extended match length. -/
def group_bytes (literal : List Nat) (dup_offset dup_extra : Nat) : List Nat :=
  write_lsic_head (write_lsic_head 0 4 literal.length) 0 dup_extra ::
    (write_lsic_tail literal.length ++ literal ++
      [dup_offset % 256, dup_offset / 256 % 256] ++ write_lsic_tail dup_extra)

/-- The byte stream of the final literal-only group: token then extended
length then the literals. -/
def tail_bytes (literal : List Nat) : List Nat :=
  write_lsic_head 0 4 literal.length :: (write_lsic_tail literal.length ++ literal)

/-- The data of one accepted duplicate, as recorded in the emission trace:
the wire fields (`offset`, `extra_bytes`) plus the acceptance-time state
(`acc_cursor`, `candidate`, `matching_bytes`, `backtrack`). -/
structure DupMeta where
  offset : Nat
  extra_bytes : Nat
  acc_cursor : Nat
  candidate : Nat
  matching_bytes : Nat
  backtrack : Nat
deriving DecidableEq, Repr

/-- One emitted sequence: its literal range `[literal_start, literal_end)`
of the input and, unless it is the final literal-only sequence, its
duplicate. -/
structure EmittedSeq where
  literal_start : Nat
  literal_end : Nat
  dup : Option DupMeta
deriving DecidableEq, Repr

/-- The fused outer/inner loop of `compress2`.  One fuel unit per candidate
probe; the cursor strictly grows every iteration (`step ≥ 1` in every
reachable state), so fuel `input.length + 1` always suffices.  Alongside
the sink, the trace of emitted sequences is returned for the statements
about the encoder's invariants.  The constants `1` and `1 <<< 6` are
`ACCELERATION` and `ACCELERATION << SKIP_TRIGGER`. -/
def compress_loop (input : List Nat) :
    Nat → Nat → Nat → Nat → Nat → Nat → U32Table → Sink →
      Option (Sink × List EmittedSeq)
  | 0, _, _, _, _, _, _, _ => none
  | fuel + 1, literal_start, cursor, step, step_counter, init_cursor, table, s =>
    if input.length - cursor < 12 then
      -- end with a literal-only sequence covering the rest of the input
      let literal_len := input.length - literal_start
      let token := write_lsic_head 0 4 literal_len
      match s.write [token] >>= (fun s => s.write (write_lsic_tail literal_len))
          >>= (fun s => s.write ((input.drop literal_start).take literal_len)) with
      | none => none
      | some s => some (s, [⟨literal_start, input.length, none⟩])
    else
      let rep := table.replace input cursor
      let candidate := rep.1
      let table := rep.2
      let matching_bytes :=
        count_matching_bytes ((input.take (input.length - 5)).drop cursor)
          (input.drop candidate)
      if cursor ≠ init_cursor ∧ candidate ≤ cursor ∧
          cursor - candidate ≤ 0xFFFF ∧ MINMATCH ≤ matching_bytes then
        -- accepted: backtrack, emit the group, restart the outer loop
        let offset := cursor - candidate
        let max_backtrack := cursor - literal_start
        let backtrack := backtrack_count input cursor candidate max_backtrack
        let extra_bytes := matching_bytes - MINMATCH + backtrack
        let cursor2 := cursor + matching_bytes
        let table := (table.replace input (cursor2 - 2)).2
        let literal_end := cursor2 - extra_bytes - MINMATCH
        match write_group s
            ((input.drop literal_start).take (literal_end - literal_start))
            offset extra_bytes with
        | none => none
        | some s =>
          match compress_loop input fuel cursor2 cursor2 1 (1 <<< 6)
              init_cursor table s with
          | none => none
          | some (s, trace) =>
            some (s, ⟨literal_start, literal_end, some
              ⟨offset, extra_bytes, cursor, candidate, matching_bytes,
                backtrack⟩⟩ :: trace)
      else
        -- no match: skip ahead
        compress_loop input fuel literal_start (cursor + step)
          (step_counter >>> 6)
          (if literal_start + 1 = cursor + step then step_counter
            else step_counter + 1)
          init_cursor table s

/-- `compress2`: the size assertion, then the outer `while cursor <
input.len()` loop (entered at most once from here: after a commit the new
cursor is at most `input.len() - 5`, so the loop is re-entered inside
`compress_loop`). -/
def compress2 (input : List Nat) (cursor : Nat) (table : U32Table)
    (s : Sink) : Option (Sink × List EmittedSeq) :=
  if U32Table.payload_size_limit < input.length then none
  else if cursor < input.length then
    compress_loop input (input.length + 1) cursor cursor 1 (1 <<< 6) cursor
      table s
  else some (s, [])

/-- The raw compression entry point of the claims: `compress2` over a fresh
hash table, cursor 0, writing to an unbounded sink. -/
def compress_raw (input : List Nat) : List Nat :=
  match compress2 input 0 U32Table.default ⟨[], none⟩ with
  | some (s, _) => s.data
  | none => []

/-- The emission trace of a `compress2` run (unbounded sink). -/
def compress_trace (input : List Nat) (cursor : Nat) (table : U32Table) :
    List EmittedSeq :=
  match compress2 input cursor table ⟨[], none⟩ with
  | some (_, tr) => tr
  | none => []

/-! ### The per-block emission step of the frame writer
(`src/framed/compress.rs`) -/

/-- `INCOMPRESSIBLE`: the high bit of the 32-bit block length. -/
def INCOMPRESSIBLE : Nat := 1 <<< 31

/-- The per-block emission decision of `compress_internal`: run the encoder
into a `NoPartialWrites` sink of capacity `read_bytes`; on success emit the
compressed length and bytes, on overflow emit `read_bytes` with the
`INCOMPRESSIBLE` flag and the plaintext block.  Returns the value of the
32-bit length word and the payload written after it. -/
def compress_block (in_buffer : List Nat) (window_offset : Nat)
    (table : U32Table) : Nat × List Nat :=
  let read_bytes := in_buffer.length - window_offset
  match compress2 in_buffer window_offset table ⟨[], some read_bytes⟩ with
  | some (s, _) =>
    let not_written_len := s.cap.getD 0
    let written_len := read_bytes - not_written_len
    (written_len, s.data.take written_len)
  | none => (read_bytes ||| INCOMPRESSIBLE, in_buffer.drop window_offset)

/-- Little-endian value of a byte list (proof-side companion of
`read_usize`, in recursive form). -/
def leVal : List Nat → Nat
  | [] => 0
  | x :: r => x + 256 * leVal r

/-- Concrete input for the C6 counterexample. -/
def c6_input : List Nat := [0, 1, 2, 3, 4, 5, 6, 7, 8, 9, 10, 11, 12]

/-- A pre-seeded table whose slot for the bytes at position 1 already holds
the value 1: the lookup at cursor 1 then returns `candidate = cursor`, which
passes the `cursor - candidate <= 0xFFFF` test with distance 0.  Such a
table is reachable through the public API by calling `replace` directly. -/
def c6_table : U32Table :=
  ⟨fun h => if h = hash_for_u32 (c6_input.drop 1) then 1 else 0, 0⟩

/-! ### Small list helpers -/

theorem takeWhile_length_le {α : Type} (p : α → Bool) :
    ∀ l : List α, (l.takeWhile p).length ≤ l.length := by
  intro l
  induction l with
  | nil => simp
  | cons a l ih =>
    rw [List.takeWhile_cons]
    split
    · simpa using ih
    · simp

theorem takeWhile_sound {α : Type} (p : α → Bool) :
    ∀ (l : List α) (j : Nat), j < (l.takeWhile p).length →
      ∃ x, l[j]? = some x ∧ p x = true := by
  intro l
  induction l with
  | nil => simp
  | cons a l ih =>
    intro j hj
    rw [List.takeWhile_cons] at hj
    by_cases hpa : p a = true
    · rw [if_pos hpa] at hj
      match j with
      | 0 => exact ⟨a, by simp, hpa⟩
      | j + 1 =>
        obtain ⟨x, hx, hpx⟩ := ih j (by simpa using hj)
        exact ⟨x, by simpa using hx, hpx⟩
    · rw [if_neg hpa] at hj
      simp at hj

/-! ### The byte-wise copy semantics (`dedup_spec`) -/

/-- Copying `n` bytes with the byte-wise growing-output semantics from
distance `off` extends a decoded prefix of `input` to a longer prefix,
provided the match source equals the match target byte-for-byte. -/
theorem dedup_spec_take (input : List Nat) :
    ∀ (n c off : Nat), 1 ≤ off → off ≤ c → c + n ≤ input.length →
      (∀ i, i < n → input.getD (c - off + i) 0 = input.getD (c + i) 0) →
      dedup_spec off n (input.take c) = input.take (c + n) := by
  intro n
  induction n with
  | zero => intro c off _ _ _ _; rfl
  | succ n ih =>
    intro c off h1 h2 h3 h4
    have hc : c < input.length := by omega
    have hlen : (input.take c).length = c := by
      rw [List.length_take]; omega
    have hb : (input.take c).getD ((input.take c).length - off) 0
        = input.getD c 0 := by
      rw [hlen]
      have hlt : c - off < c := by omega
      rw [List.getD_eq_getElem?_getD, List.getD_eq_getElem?_getD,
        List.getElem?_take_of_lt hlt]
      have h40 := h4 0 (by omega)
      simpa using h40
    have hstep : input.take c ++ [input.getD c 0] = input.take (c + 1) := by
      rw [List.getD_eq_getElem input 0 hc, ← List.take_concat_get input c hc]
      simp [List.concat_eq_append]
    show dedup_spec off n
        (input.take c ++ [(input.take c).getD ((input.take c).length - off) 0])
      = input.take (c + (n + 1))
    rw [hb, hstep]
    have hrec := ih (c + 1) off h1 (by omega) (by omega) ?_
    · rw [hrec]
      congr 1
      omega
    · intro i hi
      have h5 := h4 (i + 1) (by omega)
      have e1 : c - off + (i + 1) = c + 1 - off + i := by omega
      have e2 : c + (i + 1) = c + 1 + i := by omega
      rw [e1, e2] at h5
      exact h5

/-- `dedup_spec` produces exactly `output ++ app` whenever every byte of
`app` agrees with the byte `off` positions earlier in `output ++ app`. -/
theorem dedup_spec_eq_append (output app : List Nat) (off : Nat)
    (h1 : 1 ≤ off) (h2 : off ≤ output.length)
    (h3 : ∀ i, i < app.length →
      (output ++ app).getD (output.length - off + i) 0 = app.getD i 0) :
    dedup_spec off app.length output = output ++ app := by
  have hc := dedup_spec_take (output ++ app) app.length output.length off h1 h2
    (by simp) ?_
  · rw [List.take_left] at hc
    rw [hc]
    have hl : output.length + app.length = (output ++ app).length := by simp
    rw [hl, List.take_length]
  · intro i hi
    have hr : (output ++ app).getD (output.length + i) 0 = app.getD i 0 := by
      rw [List.getD_append_right output app 0 _ (by omega)]
      congr 1
      omega
    rw [hr]
    exact h3 i hi

/-- The slow byte-pushing loop agrees with `dedup_spec` once the indices are
re-based (`old_len - offset + i` versus `current_length - offset`). -/
theorem push_copy_eq_dedup (L off : Nat) (hoff : off ≤ L) :
    ∀ (n i : Nat) (out : List Nat), out.length = L + i →
      push_copy L off i n out = dedup_spec off n out := by
  intro n
  induction n with
  | zero => intro i out _; rfl
  | succ n ih =>
    intro i out hlen
    show push_copy L off (i + 1) n (out ++ [out.getD (L - off + i) 0])
      = dedup_spec off n (out ++ [out.getD (out.length - off) 0])
    have harith : L - off + i = out.length - off := by omega
    rw [harith]
    exact ih (i + 1) _ (by simp [hlen]; omega)

theorem getD_replicate (n b i : Nat) (h : i < n) :
    (List.replicate n b).getD i 0 = b := by
  rw [List.getD_eq_getElem?_getD, List.getElem?_replicate, if_pos h]
  rfl

theorem splat16_getD (buf : List Nat) (n i : Nat) (h : i < n) :
    (splat16 buf n).getD i 0 = buf.getD (i % 16) 0 := by
  rw [splat16, List.getD_eq_getElem?_getD, List.getElem?_map,
    List.getElem?_range h]
  rfl

theorem staging16_getD (pattern : List Nat) (j : Nat) (h : j < 16) :
    (staging16 pattern).getD j 0 = pattern.getD (j % pattern.length) 0 := by
  rw [staging16, List.getD_eq_getElem?_getD, List.getElem?_map,
    List.getElem?_range h]
  rfl

theorem splat16_length (buf : List Nat) (n : Nat) : (splat16 buf n).length = n := by
  rw [splat16, List.length_map, List.length_range]

/-- All branches of `copy_overlapping` reachable under
`1 ≤ offset ≤ output.length` agree with the byte-wise `dedup_spec`
semantics and succeed. -/
theorem copy_eq_dedup (offset match_len : Nat) (pfx output : List Nat)
    (h1 : 1 ≤ offset) (h2 : offset ≤ output.length) :
    copy_overlapping offset match_len pfx output =
      (dedup_spec offset match_len output, none) := by
  have h0 : ¬ (offset = 0) := by omega
  have hlt : ¬ (output.length < offset) := by omega
  unfold copy_overlapping copy_overlapping_f
  simp only [h0, hlt, if_false, ite_false]
  by_cases hoff1 : offset = 1
  · -- RLE fast path
    subst hoff1
    rw [if_pos rfl]
    set b := output.getD (output.length - 1) 0 with hb
    have happ : dedup_spec 1 match_len output
        = output ++ List.replicate match_len b := by
      have := dedup_spec_eq_append output (List.replicate match_len b) 1
        (by omega) (by omega) ?_
      · rwa [List.length_replicate] at this
      · intro i hi
        rw [List.length_replicate] at hi
        rw [getD_replicate _ _ _ hi]
        match i with
        | 0 =>
          rw [Nat.add_zero,
            List.getD_append output _ 0 _ (by omega)]
        | j + 1 =>
          have he : output.length - 1 + (j + 1) = output.length + j := by omega
          rw [he, List.getD_append_right output _ 0 _ (by omega),
            Nat.add_sub_cancel_left, getD_replicate _ _ _ (by omega)]
    rw [happ]
  · rw [if_neg hoff1]
    by_cases hml : match_len ≤ offset
    · -- non-overlapping fast path
      rw [if_pos hml]
      set app := (output.drop (output.length - offset)).take match_len with happdef
      have happlen : app.length = match_len := by
        rw [happdef, List.length_take, List.length_drop]
        omega
      have happ : dedup_spec offset match_len output = output ++ app := by
        have := dedup_spec_eq_append output app offset h1 h2 ?_
        · rwa [happlen] at this
        · intro i hi
          rw [happlen] at hi
          have hi' : i < offset := by omega
          have hr : app.getD i 0 = output.getD (output.length - offset + i) 0 := by
            rw [happdef, List.getD_eq_getElem?_getD,
              List.getElem?_take_of_lt hi, List.getElem?_drop,
              ← List.getD_eq_getElem?_getD]
          rw [hr, List.getD_append output app 0 _ (by omega)]
      rw [happ]
    · rw [if_neg hml]
      have hmlgt : offset < match_len := by omega
      by_cases hsmall : offset = 2 ∨ offset = 4 ∨ offset = 8
      · -- small overlapping fast path via the 16-byte staging buffer
        rw [if_pos hsmall]
        set pattern := (output.drop (output.length - offset)).take offset
          with hpatdef
        have hpatlen : pattern.length = offset := by
          rw [hpatdef, List.length_take, List.length_drop]
          omega
        have hpat : ∀ k, k < offset →
            pattern.getD k 0 = output.getD (output.length - offset + k) 0 := by
          intro k hk
          rw [hpatdef, List.getD_eq_getElem?_getD,
            List.getElem?_take_of_lt hk, List.getElem?_drop,
            ← List.getD_eq_getElem?_getD]
        have hdvd : offset ∣ 16 := by
          rcases hsmall with h | h | h <;> subst h <;> decide
        set app := splat16 (staging16 pattern) match_len with happdef
        have happlen : app.length = match_len := splat16_length _ _
        have happD : ∀ i, i < match_len →
            app.getD i 0 = output.getD (output.length - offset + i % offset) 0 := by
          intro i hi
          rw [happdef, splat16_getD _ _ _ hi,
            staging16_getD _ _ (Nat.mod_lt _ (by omega)), hpatlen,
            Nat.mod_mod_of_dvd i hdvd, hpat _ (Nat.mod_lt _ (by omega))]
        have happ : dedup_spec offset match_len output = output ++ app := by
          have := dedup_spec_eq_append output app offset h1 h2 ?_
          · rwa [happlen] at this
          · intro i hi
            rw [happlen] at hi
            rw [happD i hi]
            by_cases hio : i < offset
            · rw [List.getD_append output app 0 _ (by omega),
                Nat.mod_eq_of_lt hio]
            · have hge : offset ≤ i := by omega
              have he : output.length - offset + i = output.length + (i - offset) := by
                omega
              rw [he, List.getD_append_right output app 0 _ (by omega),
                Nat.add_sub_cancel_left, happD _ (by omega),
                ← Nat.mod_eq_sub_mod hge]
        rw [happ]
      · -- slowest path: byte-wise copy
        rw [if_neg hsmall]
        rw [push_copy_eq_dedup output.length offset h2 match_len 0 output
          (by omega)]

/-! ### Claim C8: copy-path equivalence -/

/-- **C8**: for every output buffer, prefix, `match_len`, and `offset` with
`1 ≤ offset ≤ output.len()`, every branch of `copy_overlapping` (the
`offset == 1` RLE path, the non-overlapping path for `match_len ≤ offset`,
the 16-byte tiling path for offsets 2, 4, 8, and the byte-wise fallback)
appends exactly the bytes whose `i`-th element equals the byte at position
`old_len - offset + i` of the growing output (`dedup_spec`). -/
theorem copy_paths_equivalent (offset match_len : Nat) (pfx output : List Nat)
    (h1 : 1 ≤ offset) (h2 : offset ≤ output.length) :
    copy_overlapping offset match_len pfx output =
      (dedup_spec offset match_len output, none) :=
  copy_eq_dedup offset match_len pfx output h1 h2

/-- Witness for C8 at a concrete input exercising the 16-byte tiling branch
(`offset = 2 < match_len = 5`). -/
theorem copy_paths_equivalent_witness :
    (1 ≤ 2 ∧ 2 ≤ [10, 20].length) ∧
      copy_overlapping 2 5 [] [10, 20] = (dedup_spec 2 5 [10, 20], none) :=
  ⟨by decide, copy_paths_equivalent 2 5 [] [10, 20] (by decide) (by decide)⟩

/-! ### Claim C3: offset validation -/

/-- **C3**: a zero offset always yields `ZeroDeduplicationOffset`; an offset
whose excess over the current output length exceeds the prefix length yields
`InvalidDeduplicationOffset`; and decoding the block `[0x10, 'a', 2, 0]`
with an empty prefix fails with `InvalidDeduplicationOffset`. -/
theorem offset_validation :
    (∀ match_len pfx output, copy_overlapping 0 match_len pfx output =
      (output, some DecodeError.ZeroDeduplicationOffset)) ∧
    (∀ offset match_len pfx (output : List Nat),
      pfx.length < offset - output.length →
      copy_overlapping offset match_len pfx output =
        (output, some DecodeError.InvalidDeduplicationOffset)) ∧
    decompress_raw [0x10, 97, 2, 0] [] [] (2 ^ 64 - 1) =
      ([97], some DecodeError.InvalidDeduplicationOffset) := by
  refine ⟨fun ml pfx out => rfl, fun off ml pfx out h => ?_, by decide⟩
  have h1 : out.length < off := by omega
  have h0 : ¬ (off = 0) := by omega
  unfold copy_overlapping copy_overlapping_f
  rw [if_neg h0, if_pos h1, if_pos (by omega : pfx.length < off - out.length)]

/-- Witness for C3's conditional clause at a concrete input
(`offset = 2`, one output byte, empty prefix). -/
theorem offset_validation_witness :
    copy_overlapping 2 4 [] [97] =
      ([97], some DecodeError.InvalidDeduplicationOffset) :=
  offset_validation.2.1 2 4 [] [97] (by decide)

/-! ### Claim C2: the output-limit bound -/

/-- **C2** (evidence of the code bug): on input `[0x20]` with empty prefix,
empty initial output and `output_limit = 0`, the decoder resizes the output
to the declared literal length *before* discovering the input is truncated,
returning `UnexpectedEnd` with a 2-byte buffer — which exceeds
`output_limit + input.len() = 1`.  This contradicts the claim (and the
function's own documentation) that the buffer never exceeds
`output_limit + input.len()`. -/
theorem output_limit_overrun :
    decompress_raw [0x20] [] [] 0 = ([0, 0], some DecodeError.UnexpectedEnd) ∧
    (decompress_raw [0x20] [] [] 0).1.length = 2 ∧
    0 + [0x20].length < (decompress_raw [0x20] [] [] 0).1.length := by
  decide

/-! ### Soundness of `count_matching_bytes` -/

theorem trailing_zeros_le : ∀ fuel x, trailing_zeros fuel x ≤ fuel := by
  intro fuel
  induction fuel with
  | zero => intro x; rw [trailing_zeros]
  | succ fuel ih =>
    intro x
    rw [trailing_zeros]
    split
    · omega
    · have := ih (x / 2)
      omega

/-- Every bit strictly below the trailing-zero count is clear. -/
theorem trailing_zeros_bits :
    ∀ fuel x i, i < trailing_zeros fuel x → x.testBit i = false := by
  intro fuel
  induction fuel with
  | zero => intro x i hi; rw [trailing_zeros] at hi; omega
  | succ fuel ih =>
    intro x i hi
    rw [trailing_zeros] at hi
    by_cases hodd : x % 2 = 1
    · rw [if_pos hodd] at hi; omega
    · rw [if_neg hodd] at hi
      match i with
      | 0 =>
        rw [Nat.testBit_zero]
        simp only [decide_eq_false_iff_not]
        omega
      | i + 1 =>
        rw [Nat.testBit_succ]
        exact ih (x / 2) i (by omega)

theorem read_usize_eq_leVal (a0 a1 a2 a3 a4 a5 a6 a7 : Nat) :
    read_usize [a0, a1, a2, a3, a4, a5, a6, a7]
      = leVal [a0, a1, a2, a3, a4, a5, a6, a7] := by
  simp [read_usize, leVal]

/-- If the low `8 * (j + 1)` bits of the little-endian values of two byte
lists agree, their `j`-th bytes agree. -/
theorem bytes_eq_of_low_bits :
    ∀ (j : Nat) (la lb : List Nat) (t : Nat),
      (∀ x ∈ la, x < 256) → (∀ x ∈ lb, x < 256) →
      (∀ i, i < t → (leVal la).testBit i = (leVal lb).testBit i) →
      8 * (j + 1) ≤ t → j < la.length → j < lb.length →
      la.getD j 0 = lb.getD j 0 := by
  intro j
  induction j with
  | zero =>
    intro la lb t ha hb hbits ht hla hlb
    match la, lb with
    | x :: ra, y :: rb =>
      show x = y
      have hx : x < 256 := ha x (by simp)
      have hy : y < 256 := hb y (by simp)
      have hmx : leVal (x :: ra) % 256 = x := by
        rw [leVal, Nat.add_mul_mod_self_left]
        exact Nat.mod_eq_of_lt hx
      have hmy : leVal (y :: rb) % 256 = y := by
        rw [leVal, Nat.add_mul_mod_self_left]
        exact Nat.mod_eq_of_lt hy
      have h256 : (256 : Nat) = 2 ^ 8 := by norm_num
      have key : leVal (x :: ra) % 256 = leVal (y :: rb) % 256 := by
        rw [h256]
        apply Nat.eq_of_testBit_eq
        intro i
        rw [Nat.testBit_mod_two_pow, Nat.testBit_mod_two_pow]
        by_cases hi : i < 8
        · rw [hbits i (by omega)]
        · simp [hi]
      omega
  | succ j ih =>
    intro la lb t ha hb hbits ht hla hlb
    match la, lb with
    | x :: ra, y :: rb =>
      show ra.getD j 0 = rb.getD j 0
      have hx : x < 256 := ha x (by simp)
      have hy : y < 256 := hb y (by simp)
      have hdivx : leVal ra = leVal (x :: ra) / 256 := by
        rw [leVal, Nat.add_mul_div_left _ _ (by norm_num : (0:Nat) < 256),
          Nat.div_eq_of_lt hx, Nat.zero_add]
      have hdivy : leVal rb = leVal (y :: rb) / 256 := by
        rw [leVal, Nat.add_mul_div_left _ _ (by norm_num : (0:Nat) < 256),
          Nat.div_eq_of_lt hy, Nat.zero_add]
      apply ih ra rb (t - 8)
        (fun z hz => ha z (by simp [hz])) (fun z hz => hb z (by simp [hz]))
        ?_ (by omega) (by simpa using hla) (by simpa using hlb)
      intro i hi
      have hsx : leVal (x :: ra) / 256 = leVal (x :: ra) >>> 8 := by
        rw [Nat.shiftRight_eq_div_pow]
      have hsy : leVal (y :: rb) / 256 = leVal (y :: rb) >>> 8 := by
        rw [Nat.shiftRight_eq_div_pow]
      rw [hdivx, hdivy, hsx, hsy, Nat.testBit_shiftRight, Nat.testBit_shiftRight]
      exact hbits (8 + i) (by omega)

/-- The first arm of `count_matching_bytes`, as a clean equation. -/
theorem count_matching_bytes_cons8 (a0 a1 a2 a3 a4 a5 a6 a7 : Nat)
    (arest : List Nat) (b0 b1 b2 b3 b4 b5 b6 b7 : Nat) (brest : List Nat) :
    count_matching_bytes (a0 :: a1 :: a2 :: a3 :: a4 :: a5 :: a6 :: a7 :: arest)
      (b0 :: b1 :: b2 :: b3 :: b4 :: b5 :: b6 :: b7 :: brest)
      = if read_usize [a0, a1, a2, a3, a4, a5, a6, a7]
            = read_usize [b0, b1, b2, b3, b4, b5, b6, b7] then
          8 + count_matching_bytes arest brest
        else
          trailing_zeros 64 (read_usize [a0, a1, a2, a3, a4, a5, a6, a7] ^^^
            read_usize [b0, b1, b2, b3, b4, b5, b6, b7]) / 8 := rfl

/-- The fall-through arm of `count_matching_bytes`, as an equation guarded
by "the lists do not both have eight leading elements". -/
theorem count_matching_bytes_catchall (a b : List Nat)
    (hna : ∀ (a0 a1 a2 a3 a4 a5 a6 a7 : Nat) (arest : List Nat)
      (b0 b1 b2 b3 b4 b5 b6 b7 : Nat) (brest : List Nat),
      a = a0 :: a1 :: a2 :: a3 :: a4 :: a5 :: a6 :: a7 :: arest →
      b = b0 :: b1 :: b2 :: b3 :: b4 :: b5 :: b6 :: b7 :: brest → False) :
    count_matching_bytes a b
      = ((a.zip b).takeWhile fun p => p.1 == p.2).length := by
  rcases a with _ | ⟨a0, _ | ⟨a1, _ | ⟨a2, _ | ⟨a3, _ | ⟨a4, _ | ⟨a5, _ |
    ⟨a6, _ | ⟨a7, arest⟩⟩⟩⟩⟩⟩⟩⟩
  · rfl
  · rfl
  · rfl
  · rfl
  · rfl
  · rfl
  · rfl
  · rfl
  · rcases b with _ | ⟨b0, _ | ⟨b1, _ | ⟨b2, _ | ⟨b3, _ | ⟨b4, _ | ⟨b5, _ |
      ⟨b6, _ | ⟨b7, brest⟩⟩⟩⟩⟩⟩⟩⟩
    · rfl
    · rfl
    · rfl
    · rfl
    · rfl
    · rfl
    · rfl
    · rfl
    · exact (hna a0 a1 a2 a3 a4 a5 a6 a7 arest b0 b1 b2 b3 b4 b5 b6 b7
        brest rfl rfl).elim

set_option maxHeartbeats 1600000 in
/-- `count_matching_bytes` never reports more than the length of either
side. -/
theorem count_matching_le (a b : List Nat) :
    count_matching_bytes a b ≤ min a.length b.length := by
  induction a, b using count_matching_bytes.induct with
  | case1 a0 a1 a2 a3 a4 a5 a6 a7 arest b0 b1 b2 b3 b4 b5 b6 b7 brest wa wb heq ih =>
    rw [count_matching_bytes_cons8, if_pos heq]
    simp only [List.length_cons]
    omega
  | case2 a0 a1 a2 a3 a4 a5 a6 a7 arest b0 b1 b2 b3 b4 b5 b6 b7 brest wa wb hne =>
    rw [count_matching_bytes_cons8, if_neg hne]
    have ht := trailing_zeros_le 64
      (read_usize [a0, a1, a2, a3, a4, a5, a6, a7] ^^^
        read_usize [b0, b1, b2, b3, b4, b5, b6, b7])
    simp only [List.length_cons]
    omega
  | case3 a b hna =>
    rw [count_matching_bytes_catchall a b hna]
    have h1 := takeWhile_length_le (fun p : Nat × Nat => p.1 == p.2) (a.zip b)
    rw [List.length_zip] at h1
    exact h1

/-- Membership transport: the eight chunk bytes are among the list they
were taken from. -/
theorem mem_cons_of_mem_eight {z a0 a1 a2 a3 a4 a5 a6 a7 : Nat}
    (arest : List Nat)
    (hz : z ∈ ([a0, a1, a2, a3, a4, a5, a6, a7] : List Nat)) :
    z ∈ a0 :: a1 :: a2 :: a3 :: a4 :: a5 :: a6 :: a7 :: arest := by
  simp only [List.mem_cons, List.not_mem_nil, or_false] at hz
  simp only [List.mem_cons]
  rcases hz with h | h | h | h | h | h | h | h <;> simp [h]

/-- Membership transport: elements of the tail are in the full list. -/
theorem mem_cons_of_mem_rest {z : Nat} (a0 a1 a2 a3 a4 a5 a6 a7 : Nat)
    {arest : List Nat} (hz : z ∈ arest) :
    z ∈ a0 :: a1 :: a2 :: a3 :: a4 :: a5 :: a6 :: a7 :: arest :=
  List.mem_cons_of_mem a0 (List.mem_cons_of_mem a1 (List.mem_cons_of_mem a2
    (List.mem_cons_of_mem a3 (List.mem_cons_of_mem a4 (List.mem_cons_of_mem a5
      (List.mem_cons_of_mem a6 (List.mem_cons_of_mem a7 hz)))))))

set_option maxHeartbeats 1600000 in
/-- Soundness of `count_matching_bytes`: the reported number of bytes do
match byte-for-byte. -/
theorem count_matching_sound :
    ∀ (a b : List Nat), (∀ x ∈ a, x < 256) → (∀ x ∈ b, x < 256) →
      ∀ i, i < count_matching_bytes a b → a.getD i 0 = b.getD i 0 := by
  intro a b
  induction a, b using count_matching_bytes.induct with
  | case1 a0 a1 a2 a3 a4 a5 a6 a7 arest b0 b1 b2 b3 b4 b5 b6 b7 brest wa wb heq ih =>
    intro ha hb i hi
    rw [count_matching_bytes_cons8, if_pos heq] at hi
    by_cases hi8 : i < 8
    · have hbytes : ([a0, a1, a2, a3, a4, a5, a6, a7] : List Nat).getD i 0
          = ([b0, b1, b2, b3, b4, b5, b6, b7] : List Nat).getD i 0 := by
        apply bytes_eq_of_low_bits i _ _ (8 * (i + 1))
          (fun z hz => ha z (mem_cons_of_mem_eight arest hz))
          (fun z hz => hb z (mem_cons_of_mem_eight brest hz))
          ?_ (le_refl _) (by simpa using hi8) (by simpa using hi8)
        intro k _
        have heq2 : read_usize [a0, a1, a2, a3, a4, a5, a6, a7]
            = read_usize [b0, b1, b2, b3, b4, b5, b6, b7] := heq
        rw [← read_usize_eq_leVal, ← read_usize_eq_leVal, heq2]
      interval_cases i <;> exact hbytes
    · have hith : ∃ j, i = j + 8 := ⟨i - 8, by omega⟩
      obtain ⟨j, rfl⟩ := hith
      show arest.getD j 0 = brest.getD j 0
      apply ih
        (fun z hz => ha z (mem_cons_of_mem_rest a0 a1 a2 a3 a4 a5 a6 a7 hz))
        (fun z hz => hb z (mem_cons_of_mem_rest b0 b1 b2 b3 b4 b5 b6 b7 hz))
      omega
  | case2 a0 a1 a2 a3 a4 a5 a6 a7 arest b0 b1 b2 b3 b4 b5 b6 b7 brest wa wb hne =>
    intro ha hb i hi
    rw [count_matching_bytes_cons8, if_neg hne] at hi
    set va := read_usize [a0, a1, a2, a3, a4, a5, a6, a7] with hva
    set vb := read_usize [b0, b1, b2, b3, b4, b5, b6, b7] with hvb
    set t := trailing_zeros 64 (va ^^^ vb) with htz
    have ht64 := trailing_zeros_le 64 (va ^^^ vb)
    have hi8 : i < 8 := by omega
    have hbits : ∀ k, k < t → va.testBit k = vb.testBit k := by
      intro k hk
      have hz := trailing_zeros_bits 64 (va ^^^ vb) k hk
      rw [Nat.testBit_xor] at hz
      cases h1 : va.testBit k <;> cases h2 : vb.testBit k <;> simp_all
    have hbytes : ([a0, a1, a2, a3, a4, a5, a6, a7] : List Nat).getD i 0
        = ([b0, b1, b2, b3, b4, b5, b6, b7] : List Nat).getD i 0 := by
      apply bytes_eq_of_low_bits i _ _ t
        (fun z hz => ha z (mem_cons_of_mem_eight arest hz))
        (fun z hz => hb z (mem_cons_of_mem_eight brest hz))
        ?_ (by omega) (by simpa using hi8) (by simpa using hi8)
      intro k hk
      rw [← read_usize_eq_leVal, ← read_usize_eq_leVal, ← hva, ← hvb]
      exact hbits k hk
    interval_cases i <;> exact hbytes
  | case3 a b hna =>
    intro ha hb i hi
    rw [count_matching_bytes_catchall a b hna] at hi
    obtain ⟨⟨x, y⟩, hxy, hp⟩ :=
      takeWhile_sound (fun p : Nat × Nat => p.1 == p.2) (a.zip b) i hi
    rw [List.getElem?_zip_eq_some] at hxy
    obtain ⟨hxa, hyb⟩ := hxy
    simp only [beq_iff_eq] at hp
    rw [List.getD_eq_getElem?_getD, List.getD_eq_getElem?_getD, hxa, hyb]
    simpa using hp

/-! ### Branch equations for `compress_loop` -/

theorem sink_write_none (d bs : List Nat) :
    Sink.write ⟨d, none⟩ bs = some ⟨d ++ bs, none⟩ := rfl

/-- The tail-guard branch of `compress_loop`. -/
theorem compress_loop_tail (input : List Nat) (fuel ls cursor step sc ic : Nat)
    (table : U32Table) (s : Sink) (hc : input.length - cursor < 12) :
    compress_loop input (fuel + 1) ls cursor step sc ic table s =
      match s.write [write_lsic_head 0 4 (input.length - ls)] >>=
          (fun s => s.write (write_lsic_tail (input.length - ls))) >>=
          (fun s => s.write ((input.drop ls).take (input.length - ls))) with
      | none => none
      | some s => some (s, [⟨ls, input.length, none⟩]) := by
  rw [compress_loop, if_pos hc]

/-- The no-match branch of `compress_loop`. -/
theorem compress_loop_skip (input : List Nat) (fuel ls cursor step sc ic : Nat)
    (table : U32Table) (s : Sink) (hc : ¬ (input.length - cursor < 12))
    (hacc : ¬ (cursor ≠ ic ∧ (table.replace input cursor).1 ≤ cursor ∧
      cursor - (table.replace input cursor).1 ≤ 0xFFFF ∧
      MINMATCH ≤ count_matching_bytes
        ((input.take (input.length - 5)).drop cursor)
        (input.drop (table.replace input cursor).1))) :
    compress_loop input (fuel + 1) ls cursor step sc ic table s =
      compress_loop input fuel ls (cursor + step) (sc >>> 6)
        (if ls + 1 = cursor + step then sc else sc + 1) ic
        (table.replace input cursor).2 s := by
  rw [compress_loop, if_neg hc]
  exact if_neg hacc

/-- The accepted-match branch of `compress_loop`. -/
theorem compress_loop_commit (input : List Nat) (fuel ls cursor step sc ic : Nat)
    (table : U32Table) (s : Sink) (hc : ¬ (input.length - cursor < 12))
    (cand m bt : Nat)
    (hcand : cand = (table.replace input cursor).1)
    (hm : m = count_matching_bytes ((input.take (input.length - 5)).drop cursor)
      (input.drop cand))
    (hbt : bt = backtrack_count input cursor cand (cursor - ls))
    (hacc : cursor ≠ ic ∧ cand ≤ cursor ∧ cursor - cand ≤ 0xFFFF ∧
      MINMATCH ≤ m) :
    compress_loop input (fuel + 1) ls cursor step sc ic table s =
      match write_group s
          ((input.drop ls).take ((cursor + m - (m - MINMATCH + bt) - MINMATCH) - ls))
          (cursor - cand) (m - MINMATCH + bt) with
      | none => none
      | some s =>
        match compress_loop input fuel (cursor + m) (cursor + m) 1 (1 <<< 6) ic
            ((table.replace input cursor).2.replace input (cursor + m - 2)).2 s with
        | none => none
        | some (s, trace) =>
          some (s, ⟨ls, cursor + m - (m - MINMATCH + bt) - MINMATCH, some
            ⟨cursor - cand, m - MINMATCH + bt, cursor, cand, m, bt⟩⟩ :: trace) := by
  subst hcand hm hbt
  rw [compress_loop, if_neg hc]
  exact if_pos hacc

theorem write_group_none (d literal : List Nat) (off ex : Nat) :
    write_group ⟨d, none⟩ literal off ex =
      some ⟨d ++ group_bytes literal off ex, none⟩ := by
  rw [write_group, group_bytes]
  simp [sink_write_none, List.append_assoc]

/-- The tail-guard branch on an unbounded sink, fully evaluated. -/
theorem compress_loop_tail_none (input : List Nat)
    (fuel ls cursor step sc ic : Nat) (table : U32Table) (d : List Nat)
    (hc : input.length - cursor < 12) :
    compress_loop input (fuel + 1) ls cursor step sc ic table ⟨d, none⟩ =
      some (⟨d ++ tail_bytes ((input.drop ls).take (input.length - ls)), none⟩,
        [⟨ls, input.length, none⟩]) := by
  have hlen : ((input.drop ls).take (input.length - ls)).length
      = input.length - ls := by
    rw [List.length_take, List.length_drop]
    omega
  rw [compress_loop_tail input fuel ls cursor step sc ic table _ hc,
    tail_bytes, hlen]
  simp [sink_write_none, List.append_assoc]

/-- With an unbounded sink and sufficient fuel, `compress_loop` always
succeeds. -/
theorem compress_loop_some (input : List Nat) :
    ∀ (fuel ls cursor step sc ic : Nat) (table : U32Table) (d : List Nat),
      input.length - cursor < fuel → 1 ≤ step → 2 ^ 6 ≤ sc →
      ∃ s' tr, compress_loop input fuel ls cursor step sc ic table ⟨d, none⟩
        = some (s', tr) := by
  intro fuel
  induction fuel with
  | zero => intro ls cursor step sc ic table d h _ _; omega
  | succ fuel ih =>
    intro ls cursor step sc ic table d hf hstep hsc
    by_cases hc : input.length - cursor < 12
    · rw [compress_loop_tail_none input fuel ls cursor step sc ic table d hc]
      exact ⟨_, _, rfl⟩
    · by_cases hacc : cursor ≠ ic ∧ (table.replace input cursor).1 ≤ cursor ∧
        cursor - (table.replace input cursor).1 ≤ 0xFFFF ∧
        MINMATCH ≤ count_matching_bytes
          ((input.take (input.length - 5)).drop cursor)
          (input.drop (table.replace input cursor).1)
      · rw [compress_loop_commit input fuel ls cursor step sc ic table _ hc
          (table.replace input cursor).1
          (count_matching_bytes ((input.take (input.length - 5)).drop cursor)
            (input.drop (table.replace input cursor).1))
          (backtrack_count input cursor (table.replace input cursor).1
            (cursor - ls)) rfl rfl rfl hacc]
        set cand := (table.replace input cursor).1 with hcand
        set m := count_matching_bytes
          ((input.take (input.length - 5)).drop cursor) (input.drop cand)
          with hmdef
        set bt := backtrack_count input cursor cand (cursor - ls) with hbtdef
        simp only [write_group_none]
        have hm4 : MINMATCH ≤ m := hacc.2.2.2
        have hMM : (MINMATCH : Nat) = 4 := rfl
        obtain ⟨s', tr, hrec⟩ := ih (cursor + m) (cursor + m) 1 (1 <<< 6) ic
          (((table.replace input cursor).2.replace input (cursor + m - 2)).2)
          (d ++ group_bytes
            ((input.drop ls).take (cursor + m - (m - MINMATCH + bt) - MINMATCH - ls))
            (cursor - cand) (m - MINMATCH + bt))
          (by omega) (le_refl 1) (le_refl _)
        rw [hrec]
        exact ⟨_, _, rfl⟩
      · rw [compress_loop_skip input fuel ls cursor step sc ic table _ hc hacc]
        apply ih
        · omega
        · rw [Nat.shiftRight_eq_div_pow]
          omega
        · split <;> omega

theorem backtrack_count_le (input : List Nat) (cursor cand mb : Nat) :
    backtrack_count input cursor cand mb ≤ mb := by
  have h1 := takeWhile_length_le (fun p : Nat × Nat => p.1 == p.2)
    (((input.take cursor).reverse.zip (input.take cand).reverse).take mb)
  have h2 : ((((input.take cursor).reverse.zip
      (input.take cand).reverse)).take mb).length ≤ mb := by
    rw [List.length_take]
    omega
  exact le_trans h1 h2

/-- Length of the first argument handed to `count_matching_bytes` by the
encoder. -/
theorem current_batch_length (input : List Nat) (cursor : Nat)
    (h : cursor + 12 ≤ input.length) :
    ((input.take (input.length - 5)).drop cursor).length
      = input.length - 5 - cursor := by
  rw [List.length_drop, List.length_take]
  omega

/-- Trace invariants of `compress_loop`: the trace always ends in a
literal-only sequence reaching the end of the input; its literal start is
either the incoming one or lies at least 5 bytes before the end (the latter
whenever any match was emitted); and every recorded duplicate satisfies the
acceptance conditions of the code, starts at least 12 bytes before the end
of the input, and ends at least 5 bytes before it. -/
theorem compress_loop_trace_sound (input : List Nat) :
    ∀ (fuel ls cursor step sc ic : Nat) (table : U32Table) (s s' : Sink)
      (tr : List EmittedSeq),
      compress_loop input fuel ls cursor step sc ic table s = some (s', tr) →
      ls ≤ cursor →
      ∃ gs lastg, tr = gs ++ [lastg] ∧ lastg.dup = none ∧
        lastg.literal_end = input.length ∧
        (lastg.literal_start = ls ∨ lastg.literal_start + 5 ≤ input.length) ∧
        ((∃ g ∈ tr, g.dup ≠ none) → lastg.literal_start + 5 ≤ input.length) ∧
        (∀ g ∈ tr, ∀ d, g.dup = some d →
          d.acc_cursor ≠ ic ∧
          d.candidate ≤ d.acc_cursor ∧
          d.offset = d.acc_cursor - d.candidate ∧
          d.offset ≤ 0xFFFF ∧
          d.matching_bytes = count_matching_bytes
            ((input.take (input.length - 5)).drop d.acc_cursor)
            (input.drop d.candidate) ∧
          MINMATCH ≤ d.matching_bytes ∧
          d.extra_bytes = d.matching_bytes - MINMATCH + d.backtrack ∧
          d.backtrack = backtrack_count input d.acc_cursor d.candidate
            (d.acc_cursor - g.literal_start) ∧
          g.literal_end = d.acc_cursor - d.backtrack ∧
          d.acc_cursor + 12 ≤ input.length ∧
          d.acc_cursor + d.matching_bytes + 5 ≤ input.length) := by
  intro fuel
  induction fuel with
  | zero =>
    intro ls cursor step sc ic table s s' tr h
    rw [compress_loop] at h
    exact absurd h (by simp)
  | succ fuel ih =>
    intro ls cursor step sc ic table s s' tr h hls
    by_cases hc : input.length - cursor < 12
    · -- tail branch
      rw [compress_loop_tail input fuel ls cursor step sc ic table s hc] at h
      split at h
      · exact absurd h (by simp)
      · simp only [Option.some.injEq, Prod.mk.injEq] at h
        obtain ⟨-, rfl⟩ := h
        refine ⟨[], ⟨ls, input.length, none⟩, rfl, rfl, rfl, Or.inl rfl,
          ?_, ?_⟩
        · rintro ⟨g, hg, hd⟩
          simp only [List.mem_singleton] at hg
          subst hg
          exact absurd rfl hd
        · intro g hg d hd
          simp only [List.mem_singleton] at hg
          subst hg
          exact absurd hd (by simp)
    · by_cases hacc : cursor ≠ ic ∧ (table.replace input cursor).1 ≤ cursor ∧
        cursor - (table.replace input cursor).1 ≤ 0xFFFF ∧
        MINMATCH ≤ count_matching_bytes
          ((input.take (input.length - 5)).drop cursor)
          (input.drop (table.replace input cursor).1)
      · -- accepted-match branch
        rw [compress_loop_commit input fuel ls cursor step sc ic table s hc
          (table.replace input cursor).1
          (count_matching_bytes ((input.take (input.length - 5)).drop cursor)
            (input.drop (table.replace input cursor).1))
          (backtrack_count input cursor (table.replace input cursor).1
            (cursor - ls))
          rfl rfl rfl hacc] at h
        set cand := (table.replace input cursor).1 with hcand
        set m := count_matching_bytes ((input.take (input.length - 5)).drop
          cursor) (input.drop cand) with hm
        set bt := backtrack_count input cursor cand (cursor - ls) with hbt
        have hm5 : cursor + m ≤ input.length - 5 := by
          have h1 := count_matching_le ((input.take (input.length - 5)).drop
            cursor) (input.drop cand)
          rw [current_batch_length input cursor (by omega)] at h1
          omega
        have hbtle : bt ≤ cursor - ls := by
          rw [hbt]
          exact backtrack_count_le input cursor cand (cursor - ls)
        have hm4 : MINMATCH ≤ m := hacc.2.2.2
        split at h
        · exact absurd h (by simp)
        · rename_i s2 hs2
          split at h
          · exact absurd h (by simp)
          · rename_i res s3 trace hrec
            simp only [Option.some.injEq, Prod.mk.injEq] at h
            obtain ⟨-, rfl⟩ := h
            obtain ⟨gs', lastg, htr', hldup, hlend, hlstart, hlany, hdups⟩ :=
              ih (cursor + m) (cursor + m) 1 (1 <<< 6) ic _ s2 s3 trace hrec
                (le_refl _)
            have hlstart5 : lastg.literal_start + 5 ≤ input.length := by
              rcases hlstart with h5 | h5
              · rw [h5]; omega
              · exact h5
            refine ⟨⟨ls, cursor + m - (m - MINMATCH + bt) - MINMATCH, some
              ⟨cursor - cand, m - MINMATCH + bt, cursor, cand, m, bt⟩⟩ :: gs',
              lastg, by rw [htr']; rfl, hldup, hlend, Or.inr hlstart5,
              fun _ => hlstart5, ?_⟩
            intro g hg d hd
            rcases List.mem_cons.mp hg with rfl | hg'
            · simp only [Option.some.injEq] at hd
              subst hd
              have hMIN : (MINMATCH : Nat) = 4 := rfl
              refine ⟨hacc.1, hacc.2.1, rfl, hacc.2.2.1, hm, hm4, rfl, ?_, ?_,
                ?_, ?_⟩
              · show bt = backtrack_count input cursor cand (cursor - ls)
                exact hbt
              · show cursor + m - (m - MINMATCH + bt) - MINMATCH = cursor - bt
                omega
              · show cursor + 12 ≤ input.length
                omega
              · show cursor + m + 5 ≤ input.length
                omega
            · exact hdups g hg' d hd
      · -- skip branch
        rw [compress_loop_skip input fuel ls cursor step sc ic table s hc
          hacc] at h
        obtain ⟨gs, lastg, htr, h1, h2, h3, h4, h5⟩ :=
          ih ls (cursor + step) (sc >>> 6)
            (if ls + 1 = cursor + step then sc else sc + 1) ic
            (table.replace input cursor).2 s s' tr h (by omega)
        exact ⟨gs, lastg, htr, h1, h2, h3, h4, h5⟩

/-! ### Claims C6 and C7: encoder match invariant and tail rule -/

/-- **C6 (amended)**: every sequence emitted by `compress2` carries a match
offset of at most 65535 — equal to the distance `cursor - candidate`, which
can be 0 when a pre-seeded initial table returns a candidate equal to the
cursor, so the claim's lower bound of 1 does not hold for every initial
table — and a total match length of `extra_bytes + 4 ≥ 4`; a candidate is
accepted only when the cursor has moved past the initial cursor, the
distance `cursor - candidate` is at most 65535, and at least 4 bytes
(indeed, `matching_bytes` many) match byte-for-byte. -/
theorem encoder_match_acceptance (input : List Nat) (cursor : Nat)
    (table : U32Table) (hbytes : ∀ x ∈ input, x < 256) :
    ∀ g ∈ compress_trace input cursor table, ∀ d, g.dup = some d →
      d.offset ≤ 0xFFFF ∧
      d.offset = d.acc_cursor - d.candidate ∧
      d.candidate ≤ d.acc_cursor ∧
      d.acc_cursor ≠ cursor ∧
      MINMATCH ≤ d.matching_bytes ∧
      d.extra_bytes + MINMATCH = d.matching_bytes + d.backtrack ∧
      ∀ i, i < d.matching_bytes →
        input.getD (d.acc_cursor + i) 0 = input.getD (d.candidate + i) 0 := by
  intro g hg d hd
  rw [compress_trace] at hg
  rcases hcomp : compress2 input cursor table ⟨[], none⟩ with _ | ⟨s', tr⟩
  · rw [hcomp] at hg
    exact absurd hg (by simp)
  · rw [hcomp] at hg
    rw [compress2] at hcomp
    by_cases hgate : U32Table.payload_size_limit < input.length
    · rw [if_pos hgate] at hcomp
      cases hcomp
    · rw [if_neg hgate] at hcomp
      by_cases hcur : cursor < input.length
      · rw [if_pos hcur] at hcomp
        obtain ⟨gs, lastg, htr, -, -, -, -, h5⟩ :=
          compress_loop_trace_sound input (input.length + 1) cursor cursor 1
            (1 <<< 6) cursor table ⟨[], none⟩ s' tr hcomp (le_refl _)
        obtain ⟨hne, hcle, hoff, hoffle, hmeq, hm4, hex, hbt, hle, h12, h55⟩ :=
          h5 g hg d hd
        have hMM : (MINMATCH : Nat) = 4 := rfl
        have hlena : ((input.take (input.length - 5)).drop d.acc_cursor).length
            = input.length - 5 - d.acc_cursor :=
          current_batch_length input d.acc_cursor (by omega)
        have hmle := count_matching_le
          ((input.take (input.length - 5)).drop d.acc_cursor)
          (input.drop d.candidate)
        rw [← hmeq, hlena] at hmle
        refine ⟨hoffle, hoff, hcle, hne, hm4, by omega, ?_⟩
        intro i hi
        have hsound := count_matching_sound
          ((input.take (input.length - 5)).drop d.acc_cursor)
          (input.drop d.candidate)
          (fun x hx => hbytes x (List.take_subset _ _ (List.drop_subset _ _ hx)))
          (fun x hx => hbytes x (List.drop_subset _ _ hx))
          i (by rw [← hmeq]; exact hi)
        have ha : ((input.take (input.length - 5)).drop d.acc_cursor).getD i 0
            = input.getD (d.acc_cursor + i) 0 := by
          rw [List.getD_eq_getElem?_getD, List.getElem?_drop,
            List.getElem?_take_of_lt (by omega), ← List.getD_eq_getElem?_getD]
        have hb : (input.drop d.candidate).getD i 0
            = input.getD (d.candidate + i) 0 := by
          rw [List.getD_eq_getElem?_getD, List.getElem?_drop,
            ← List.getD_eq_getElem?_getD]
        rw [← ha, ← hb]
        exact hsound
      · rw [if_neg hcur] at hcomp
        simp only [Option.some.injEq, Prod.mk.injEq] at hcomp
        obtain ⟨-, rfl⟩ := hcomp
        exact absurd hg (by simp)

/-- C6 counterexample: with a pre-seeded table (reachable through the
public `EncoderTable::replace` API) the encoder emits a sequence whose
match offset is 0, refuting "match offsets are in [1, 65535]" for every
initial hash table. -/
theorem match_offset_zero_emitted :
    compress_trace c6_input 0 c6_table =
      [⟨0, 0, some ⟨0, 4, 1, 1, 7, 1⟩⟩, ⟨8, 13, none⟩] ∧
    ∃ g ∈ compress_trace c6_input 0 c6_table, ∃ d, g.dup = some d ∧
      ¬ 1 ≤ d.offset := by
  constructor
  · decide
  · decide

/-- Witness for C6 at the 17-byte all-`'a'` input whose trace carries one
match (offset 1, 11 matching bytes). -/
theorem encoder_match_acceptance_witness :
    (⟨1, 7, 1, 0, 11, 0⟩ : DupMeta).offset ≤ 0xFFFF ∧
    (List.replicate 17 97).getD (1 + 0) 0
      = (List.replicate 17 97).getD (0 + 0) 0 := by
  have h := encoder_match_acceptance (List.replicate 17 97) 0 U32Table.default
    (by decide) ⟨0, 1, some ⟨1, 7, 1, 0, 11, 0⟩⟩ (by decide)
    ⟨1, 7, 1, 0, 11, 0⟩ rfl
  exact ⟨h.1, h.2.2.2.2.2.2 0 (by decide)⟩

/-- **C7 (amended)**: the trace always ends with one literal-only sequence
covering the input up to its end; its literal run has at least 5 bytes
whenever at least one match was emitted (an input compressed without any
match keeps its full tail, which may be shorter); every emitted match
starts at least 12 bytes before end-of-input and ends at least 5 bytes
before it (the claim's "ends at least 12 bytes before" is refuted by the
counterexample). -/
theorem encoder_tail_rule (input : List Nat) (cursor : Nat) (table : U32Table)
    (hcur : cursor < input.length)
    (hlim : input.length ≤ U32Table.payload_size_limit) :
    ∃ gs lastg, compress_trace input cursor table = gs ++ [lastg] ∧
      lastg.dup = none ∧ lastg.literal_end = input.length ∧
      (lastg.literal_start = cursor ∨ lastg.literal_start + 5 ≤ input.length) ∧
      ((∃ g ∈ compress_trace input cursor table, g.dup ≠ none) →
        lastg.literal_start + 5 ≤ input.length) ∧
      ∀ g ∈ compress_trace input cursor table, ∀ d, g.dup = some d →
        g.literal_end = d.acc_cursor - d.backtrack ∧
        d.acc_cursor - d.backtrack + 12 ≤ input.length ∧
        d.acc_cursor + d.matching_bytes + 5 ≤ input.length := by
  obtain ⟨s', tr, hloop⟩ := compress_loop_some input (input.length + 1) cursor
    cursor 1 (1 <<< 6) cursor table [] (by omega) (le_refl 1) (le_refl _)
  have htrace : compress_trace input cursor table = tr := by
    rw [compress_trace, compress2, if_neg (not_lt.mpr hlim), if_pos hcur,
      hloop]
  obtain ⟨gs, lastg, htr, h1, h2, h3, h4, h5⟩ :=
    compress_loop_trace_sound input (input.length + 1) cursor cursor 1
      (1 <<< 6) cursor table ⟨[], none⟩ s' tr hloop (le_refl _)
  rw [htrace]
  refine ⟨gs, lastg, htr, h1, h2, h3, h4, ?_⟩
  intro g hg d hd
  obtain ⟨-, -, -, -, -, -, -, -, hle, h12, h55⟩ := h5 g hg d hd
  exact ⟨hle, by omega, h55⟩

/-- C7 counterexample: the claim as stated fails twice.  On `"a49"` the
final literal-only tail has only 3 < 5 bytes; on 17 × `'a'` the emitted
match ends at position 1 + 11 = 12, which is only 5 < 12 bytes before
end-of-input. -/
theorem tail_rule_counterexample :
    (compress_trace [97, 52, 57] 0 U32Table.default = [⟨0, 3, none⟩] ∧
      ¬ 5 ≤ 3 - 0) ∧
    (compress_trace (List.replicate 17 97) 0 U32Table.default =
      [⟨0, 1, some ⟨1, 7, 1, 0, 11, 0⟩⟩, ⟨12, 17, none⟩] ∧
      ¬ 1 + 11 + 12 ≤ 17) := by
  exact ⟨⟨by decide, by decide⟩, ⟨by decide, by decide⟩⟩

/-- Witness for C7 at the 17-byte all-`'a'` input. -/
theorem encoder_tail_rule_witness :
    ∃ gs lastg,
      compress_trace (List.replicate 17 97) 0 U32Table.default
        = gs ++ [lastg] ∧
      lastg.dup = none ∧ lastg.literal_end = (List.replicate 17 97).length ∧
      (lastg.literal_start = 0 ∨
        lastg.literal_start + 5 ≤ (List.replicate 17 97).length) ∧
      ((∃ g ∈ compress_trace (List.replicate 17 97) 0 U32Table.default,
          g.dup ≠ none) →
        lastg.literal_start + 5 ≤ (List.replicate 17 97).length) ∧
      ∀ g ∈ compress_trace (List.replicate 17 97) 0 U32Table.default,
        ∀ d, g.dup = some d →
          g.literal_end = d.acc_cursor - d.backtrack ∧
          d.acc_cursor - d.backtrack + 12 ≤ (List.replicate 17 97).length ∧
          d.acc_cursor + d.matching_bytes + 5
            ≤ (List.replicate 17 97).length :=
  encoder_tail_rule (List.replicate 17 97) 0 U32Table.default (by decide)
    (by decide)

/-! ### Claim C5: frame block non-expansion -/

theorem bind_some_elim {α β : Type} {a : Option α} {f : α → Option β} {b : β}
    (h : (a >>= f) = some b) : ∃ x, a = some x ∧ f x = some b := by
  cases a with
  | none => cases h
  | some x => exact ⟨x, rfl, h⟩

/-- One bounded write preserves `data length + remaining capacity`. -/
theorem sink_write_cap (s s' : Sink) (bs : List Nat) (c : Nat)
    (hc : s.cap = some c) (h : s.write bs = some s') :
    ∃ c', s'.cap = some c' ∧ s'.data.length + c' = s.data.length + c := by
  simp only [Sink.write, hc] at h
  by_cases hlt : c < bs.length
  · rw [if_pos hlt] at h
    cases h
  · rw [if_neg hlt] at h
    simp only [Option.some.injEq] at h
    subst h
    refine ⟨c - bs.length, rfl, ?_⟩
    simp only [List.length_append]
    omega

theorem write_group_cap (s s' : Sink) (lit : List Nat) (off ex c : Nat)
    (hc : s.cap = some c) (h : write_group s lit off ex = some s') :
    ∃ c', s'.cap = some c' ∧ s'.data.length + c' = s.data.length + c := by
  rw [write_group] at h
  obtain ⟨s1, h1, h⟩ := bind_some_elim h
  obtain ⟨s2, h2, h⟩ := bind_some_elim h
  obtain ⟨s3, h3, h⟩ := bind_some_elim h
  obtain ⟨s4, h4, h⟩ := bind_some_elim h
  obtain ⟨c1, hc1, he1⟩ := sink_write_cap s s1 _ c hc h1
  obtain ⟨c2, hc2, he2⟩ := sink_write_cap s1 s2 _ c1 hc1 h2
  obtain ⟨c3, hc3, he3⟩ := sink_write_cap s2 s3 _ c2 hc2 h3
  obtain ⟨c4, hc4, he4⟩ := sink_write_cap s3 s4 _ c3 hc3 h4
  obtain ⟨c5, hc5, he5⟩ := sink_write_cap s4 s' _ c4 hc4 h
  exact ⟨c5, hc5, by omega⟩

/-- The whole encoder loop preserves `data length + remaining capacity` on a
bounded sink. -/
theorem compress_loop_cap (input : List Nat) :
    ∀ (fuel ls cursor step sc ic : Nat) (table : U32Table) (s s' : Sink)
      (tr : List EmittedSeq) (c : Nat),
      s.cap = some c →
      compress_loop input fuel ls cursor step sc ic table s = some (s', tr) →
      ∃ c', s'.cap = some c' ∧ s'.data.length + c' = s.data.length + c := by
  intro fuel
  induction fuel with
  | zero =>
    intro ls cursor step sc ic table s s' tr c _ h
    rw [compress_loop] at h
    exact absurd h (by simp)
  | succ fuel ih =>
    intro ls cursor step sc ic table s s' tr c hc h
    by_cases hguard : input.length - cursor < 12
    · rw [compress_loop_tail input fuel ls cursor step sc ic table s hguard]
        at h
      split at h
      · exact absurd h (by simp)
      · rename_i s2 hW
        simp only [Option.some.injEq, Prod.mk.injEq] at h
        obtain ⟨rfl, -⟩ := h
        obtain ⟨sA, hA, h3⟩ := bind_some_elim hW
        obtain ⟨s1, h1, h2⟩ := bind_some_elim hA
        obtain ⟨c1, hc1, he1⟩ := sink_write_cap s s1 _ c hc h1
        obtain ⟨c2, hc2, he2⟩ := sink_write_cap s1 sA _ c1 hc1 h2
        obtain ⟨c3, hc3, he3⟩ := sink_write_cap sA s2 _ c2 hc2 h3
        exact ⟨c3, hc3, by omega⟩
    · by_cases hacc : cursor ≠ ic ∧ (table.replace input cursor).1 ≤ cursor ∧
        cursor - (table.replace input cursor).1 ≤ 0xFFFF ∧
        MINMATCH ≤ count_matching_bytes
          ((input.take (input.length - 5)).drop cursor)
          (input.drop (table.replace input cursor).1)
      · rw [compress_loop_commit input fuel ls cursor step sc ic table s hguard
          (table.replace input cursor).1
          (count_matching_bytes ((input.take (input.length - 5)).drop cursor)
            (input.drop (table.replace input cursor).1))
          (backtrack_count input cursor (table.replace input cursor).1
            (cursor - ls)) rfl rfl rfl hacc] at h
        split at h
        · exact absurd h (by simp)
        · rename_i s2 hW
          split at h
          · exact absurd h (by simp)
          · rename_i res s3 trace hrec
            simp only [Option.some.injEq, Prod.mk.injEq] at h
            obtain ⟨rfl, -⟩ := h
            obtain ⟨c2, hc2, he2⟩ := write_group_cap s s2 _ _ _ c hc hW
            obtain ⟨c3, hc3, he3⟩ := ih _ _ _ _ _ _ s2 s3 trace c2 hc2 hrec
            exact ⟨c3, hc3, by omega⟩
      · rw [compress_loop_skip input fuel ls cursor step sc ic table s hguard
          hacc] at h
        exact ih _ _ _ _ _ _ s s' tr c hc h

/-- **C5**: for every block compressed through the per-block emission step
of `CompressionSettings::compress`, the emitted payload is never longer
than the block's plaintext (`read_bytes`); on sink overflow the block is
emitted uncompressed with the high bit of the 32-bit length word set, and
otherwise the length word is the payload length, whose high bit is clear.
The bounded-sink sentinel never escapes: `compress_block` is total. -/
theorem frame_block_never_expands (in_buffer : List Nat) (window_offset : Nat)
    (table : U32Table)
    (hsize : in_buffer.length - window_offset < 2 ^ 31)
    (hlim : in_buffer.length ≤ U32Table.payload_size_limit) :
    (compress_block in_buffer window_offset table).2.length
        ≤ in_buffer.length - window_offset ∧
    (((compress_block in_buffer window_offset table).1
        = (compress_block in_buffer window_offset table).2.length ∧
      (compress_block in_buffer window_offset table).1.testBit 31 = false) ∨
      ((compress_block in_buffer window_offset table).1
          = (in_buffer.length - window_offset) ||| INCOMPRESSIBLE ∧
        (compress_block in_buffer window_offset table).2
          = in_buffer.drop window_offset ∧
        (compress_block in_buffer window_offset table).1.testBit 31 = true)) := by
  rcases hcomp : compress2 in_buffer window_offset table
    ⟨[], some (in_buffer.length - window_offset)⟩ with _ | ⟨s, tr⟩
  · -- sink overflow: incompressible fallback
    have hcb : compress_block in_buffer window_offset table
        = ((in_buffer.length - window_offset) ||| INCOMPRESSIBLE,
            in_buffer.drop window_offset) := by
      simp only [compress_block, hcomp]
    rw [hcb]
    dsimp only
    refine ⟨by rw [List.length_drop], Or.inr ⟨rfl, rfl, ?_⟩⟩
    rw [INCOMPRESSIBLE, Nat.testBit_or]
    have h2 : (1 <<< 31 : Nat) = 2 ^ 31 := by rw [Nat.shiftLeft_eq]; omega
    rw [h2, Nat.testBit_two_pow]
    simp
  · -- the encoder fits: length word = payload length < 2^31
    have hcap : ∃ c', s.cap = some c' ∧
        s.data.length + c' = in_buffer.length - window_offset := by
      rw [compress2] at hcomp
      rw [if_neg (not_lt.mpr hlim)] at hcomp
      by_cases hcur : window_offset < in_buffer.length
      · rw [if_pos hcur] at hcomp
        obtain ⟨c', hc', he⟩ := compress_loop_cap in_buffer
          (in_buffer.length + 1) window_offset window_offset 1 (1 <<< 6)
          window_offset table _ s tr _ rfl hcomp
        exact ⟨c', hc', by simpa using he⟩
      · rw [if_neg hcur] at hcomp
        simp only [Option.some.injEq, Prod.mk.injEq] at hcomp
        obtain ⟨hs, -⟩ := hcomp
        subst hs
        exact ⟨in_buffer.length - window_offset, rfl, by simp⟩
    obtain ⟨c', hc', he⟩ := hcap
    have hcb : compress_block in_buffer window_offset table
        = (in_buffer.length - window_offset - c',
            s.data.take (in_buffer.length - window_offset - c')) := by
      simp only [compress_block, hcomp, hc', Option.getD_some]
    have hwl : in_buffer.length - window_offset - c' = s.data.length := by
      omega
    rw [hcb, hwl, List.take_length]
    dsimp only
    refine ⟨by omega, Or.inl ⟨rfl, ?_⟩⟩
    exact Nat.testBit_lt_two_pow (by omega)

/-- Witness for C5 at a 20-byte compressible all-`'a'` block. -/
theorem frame_block_never_expands_witness :
    (compress_block (List.replicate 20 97) 0 U32Table.default).2.length
        ≤ (List.replicate 20 97).length - 0 ∧
    (((compress_block (List.replicate 20 97) 0 U32Table.default).1
        = (compress_block (List.replicate 20 97) 0
            U32Table.default).2.length ∧
      (compress_block (List.replicate 20 97) 0
          U32Table.default).1.testBit 31 = false) ∨
      ((compress_block (List.replicate 20 97) 0 U32Table.default).1
          = ((List.replicate 20 97).length - 0) ||| INCOMPRESSIBLE ∧
        (compress_block (List.replicate 20 97) 0 U32Table.default).2
          = (List.replicate 20 97).drop 0 ∧
        (compress_block (List.replicate 20 97) 0
            U32Table.default).1.testBit 31 = true)) :=
  frame_block_never_expands (List.replicate 20 97) 0 U32Table.default
    (by decide) (by decide)

/-! ### LSIC round-trip (claim C9) -/

theorem read_lsic_go_ff (l : List Nat) (acc : Nat) :
    read_lsic_go (0xFF :: l) acc = read_lsic_go l (acc + 0xFF) := by
  rw [read_lsic_go, if_pos rfl]

theorem read_lsic_go_last (b : Nat) (l : List Nat) (acc : Nat)
    (h : b ≠ 0xFF) : read_lsic_go (b :: l) acc = some (acc + b, l) := by
  rw [read_lsic_go, if_neg h]

/-- Decoding the continuation bytes written by `write_lsic_tail_go` adds
back exactly the encoded value. -/
theorem write_lsic_tail_go_spec :
    ∀ fuel v, v < fuel → ∀ acc rest,
      read_lsic_go (write_lsic_tail_go fuel v ++ rest) acc
        = some (acc + v, rest) := by
  intro fuel
  induction fuel with
  | zero => omega
  | succ fuel ih =>
    intro v hv acc rest
    rw [write_lsic_tail_go]
    by_cases h4 : 4 * 0xFF ≤ v
    · rw [if_pos h4]
      simp only [List.cons_append, read_lsic_go_ff]
      have hacc : acc + v
          = acc + 0xFF + 0xFF + 0xFF + 0xFF + (v - 4 * 0xFF) := by omega
      rw [hacc]
      exact ih (v - 4 * 0xFF) (by omega) _ rest
    · rw [if_neg h4]
      by_cases h1 : 0xFF ≤ v
      · rw [if_pos h1]
        simp only [List.cons_append, read_lsic_go_ff]
        have hacc : acc + v = acc + 0xFF + (v - 0xFF) := by omega
        rw [hacc]
        exact ih (v - 0xFF) (by omega) _ rest
      · rw [if_neg h1]
        simp only [List.cons_append]
        exact read_lsic_go_last v rest acc (by omega)

/-- The bytes written by `write_lsic_tail_go` are a run of `0xFF` followed
by one residue byte strictly below `0xFF`. -/
theorem write_lsic_tail_go_structure :
    ∀ fuel v, v < fuel → ∃ k,
      write_lsic_tail_go fuel v = List.replicate k 0xFF ++ [v - 255 * k] ∧
      v - 255 * k < 255 ∧ 255 * k ≤ v := by
  intro fuel
  induction fuel with
  | zero => omega
  | succ fuel ih =>
    intro v hv
    rw [write_lsic_tail_go]
    by_cases h4 : 4 * 0xFF ≤ v
    · rw [if_pos h4]
      obtain ⟨k, hk, hk1, hk2⟩ := ih (v - 4 * 0xFF) (by omega)
      refine ⟨k + 4, ?_, by omega, by omega⟩
      rw [hk]
      have he : v - 4 * 0xFF - 255 * k = v - 255 * (k + 4) := by omega
      rw [he]
      rfl
    · rw [if_neg h4]
      by_cases h1 : 0xFF ≤ v
      · rw [if_pos h1]
        obtain ⟨k, hk, hk1, hk2⟩ := ih (v - 0xFF) (by omega)
        refine ⟨k + 1, ?_, by omega, by omega⟩
        rw [hk]
        have he : v - 0xFF - 255 * k = v - 255 * (k + 1) := by omega
        rw [he]
        rfl
      · rw [if_neg h1]
        exact ⟨0, by simp, by omega, by omega⟩

/-- The token nibble written by `write_lsic_head` into an empty token at
shift 0 is `min value 15`. -/
theorem write_lsic_head_zero (value : Nat) :
    write_lsic_head 0 0 value = min value 0xF := by
  rw [write_lsic_head, Nat.zero_or, Nat.shiftLeft_zero]

/-- Shared LSIC round-trip: the nibble from `write_lsic_head` plus the bytes
from `write_lsic_tail` decode back to the value, leaving the rest of the
stream untouched. -/
theorem read_lsic_write (value : Nat) (rest : List Nat) :
    read_lsic (write_lsic_head 0 0 value) (write_lsic_tail value ++ rest)
      = some (value, rest) := by
  rw [write_lsic_head_zero, write_lsic_tail]
  by_cases h : value < 0xF
  · rw [if_pos h, read_lsic, if_neg (by omega : ¬ (min value 0xF = 0xF))]
    rw [Nat.min_eq_left (by omega)]
    rfl
  · rw [if_neg h, read_lsic, if_pos (by omega : min value 0xF = 0xF)]
    have := write_lsic_tail_go_spec (value + 1) (value - 0xF) (by omega)
      0xF rest
    rw [this]
    congr 2
    omega

/-- **C9**: for every value `n`, writing the token nibble with
`write_lsic_head`, the continuation bytes with `write_lsic_tail` (including
the 4-at-a-time `0xFF` grouping), and decoding with `read_lsic` returns
exactly `n`; the final residue byte is always in `0..254`. -/
theorem lsic_varint_roundtrip :
    (∀ value rest, read_lsic (write_lsic_head 0 0 value)
      (write_lsic_tail value ++ rest) = some (value, rest)) ∧
    (∀ value, 0xF ≤ value → ∃ k,
      write_lsic_tail value = List.replicate k 0xFF ++ [value - 0xF - 255 * k] ∧
      value - 0xF - 255 * k < 255) := by
  refine ⟨read_lsic_write, fun value hv => ?_⟩
  obtain ⟨k, hk, hk1, hk2⟩ :=
    write_lsic_tail_go_structure (value + 1) (value - 0xF) (by omega)
  refine ⟨k, ?_, by omega⟩
  rw [write_lsic_tail, if_neg (by omega), hk]

/-- Witness for C9 at `value = 1500` (which exercises both the four-byte
`0xFF` group and a single `0xFF`) and at `value = 7` (nibble-only). -/
theorem lsic_varint_roundtrip_witness :
    read_lsic (write_lsic_head 0 0 1500) (write_lsic_tail 1500 ++ [9])
      = some (1500, [9]) ∧
    read_lsic (write_lsic_head 0 0 7) (write_lsic_tail 7 ++ [])
      = some (7, []) ∧
    (∃ k, write_lsic_tail 1500 = List.replicate k 0xFF ++ [1500 - 0xF - 255 * k] ∧
      1500 - 0xF - 255 * k < 255) :=
  ⟨lsic_varint_roundtrip.1 1500 [9], lsic_varint_roundtrip.1 7 [],
    lsic_varint_roundtrip.2 1500 (by decide)⟩

/-! ### Decoding the encoder's groups -/

theorem token_bits : ∀ (a b : Fin 16),
    ((16 * a.val) ||| b.val) >>> 4 = a.val ∧
    ((16 * a.val) ||| b.val) &&& 0xF = b.val ∧
    (16 * a.val) >>> 4 = a.val ∧ (16 * a.val) &&& 0xF = 0 := by decide

/-- The literal-only token: high nibble `min L 15`, low nibble 0. -/
theorem tail_token_bits (L : Nat) :
    write_lsic_head 0 4 L >>> 4 = min L 0xF ∧
    write_lsic_head 0 4 L &&& 0xF = 0 := by
  have h : write_lsic_head 0 4 L = 16 * min L 0xF := by
    rw [write_lsic_head, Nat.zero_or, Nat.shiftLeft_eq]
    have : (2 : Nat) ^ 4 = 16 := by norm_num
    rw [this, Nat.mul_comm]
  rw [h]
  have hf : min L 0xF < 16 := by omega
  have ht := token_bits ⟨min L 0xF, hf⟩ ⟨0, by omega⟩
  exact ⟨ht.2.2.1, ht.2.2.2⟩

/-- The literal+match token: high nibble `min L 15`, low nibble
`min E 15`. -/
theorem group_token_bits (L E : Nat) :
    write_lsic_head (write_lsic_head 0 4 L) 0 E >>> 4 = min L 0xF ∧
    write_lsic_head (write_lsic_head 0 4 L) 0 E &&& 0xF = min E 0xF := by
  have h : write_lsic_head (write_lsic_head 0 4 L) 0 E
      = (16 * min L 0xF) ||| min E 0xF := by
    rw [write_lsic_head, write_lsic_head, Nat.zero_or, Nat.shiftLeft_eq,
      Nat.shiftLeft_zero]
    have : (2 : Nat) ^ 4 = 16 := by norm_num
    rw [this, Nat.mul_comm]
  rw [h]
  have hfL : min L 0xF < 16 := by omega
  have hfE : min E 0xF < 16 := by omega
  have ht := token_bits ⟨min L 0xF, hfL⟩ ⟨min E 0xF, hfE⟩
  exact ⟨ht.1, ht.2.1⟩

/-- One iteration of the decode loop, as a clean equation. -/
theorem decompress_loop_cons (fuel token : Nat) (rest pfx output : List Nat)
    (output_limit : Nat) :
    decompress_loop (fuel + 1) (token :: rest) pfx output output_limit =
      match read_lsic (token >>> 4) rest with
      | none => (output, some DecodeError.UnexpectedEnd)
      | some (literal_length, rest1) =>
        if rest1.length < literal_length then
          (output ++ rest1 ++ List.replicate (literal_length - rest1.length) 0,
            some DecodeError.UnexpectedEnd)
        else
          match rest1.drop literal_length with
          | b0 :: b1 :: rest2 =>
            match read_lsic (token &&& 0xF) rest2 with
            | none => (output ++ rest1.take literal_length,
                some DecodeError.UnexpectedEnd)
            | some (extra, rest3) =>
              if output_limit <
                  (output ++ rest1.take literal_length).length + (4 + extra) then
                (output ++ rest1.take literal_length,
                  some DecodeError.MemoryLimitExceeded)
              else
                match copy_overlapping (b0 + 256 * b1) (4 + extra) pfx
                    (output ++ rest1.take literal_length) with
                | (output2, none) =>
                    decompress_loop fuel rest3 pfx output2 output_limit
                | (output2, some e) => (output2, some e)
          | _ => (output ++ rest1.take literal_length, none) := rfl

theorem read_lsic_write_min (value : Nat) (rest : List Nat) :
    read_lsic (min value 0xF) (write_lsic_tail value ++ rest)
      = some (value, rest) := by
  rw [← write_lsic_head_zero]
  exact read_lsic_write value rest

/-- Decoding the final literal-only group consumes it entirely and
terminates cleanly at the missing 2-byte offset. -/
theorem decode_tail_group (fuel : Nat) (lits pfx out : List Nat) (lim : Nat) :
    decompress_loop (fuel + 1) (tail_bytes lits) pfx out lim
      = (out ++ lits, none) := by
  simp only [tail_bytes, decompress_loop_cons, (tail_token_bits lits.length).1,
    read_lsic_write_min, Nat.lt_irrefl, if_false, List.drop_length,
    List.take_length]

/-- Decoding one literal+match group appends the literals and then the
byte-wise copy, stepping to the rest of the stream. -/
theorem decode_group_step (fuel : Nat) (lits pfx out rest : List Nat)
    (off E lim : Nat) (hoff1 : 1 ≤ off)
    (hoffle : off ≤ out.length + lits.length) (hoff16 : off ≤ 0xFFFF)
    (hlim : out.length + lits.length + (4 + E) ≤ lim) :
    decompress_loop (fuel + 1) (group_bytes lits off E ++ rest) pfx out lim =
      decompress_loop fuel rest pfx (dedup_spec off (4 + E) (out ++ lits))
        lim := by
  have hshape : group_bytes lits off E ++ rest
      = write_lsic_head (write_lsic_head 0 4 lits.length) 0 E ::
        (write_lsic_tail lits.length ++
          (lits ++ ([off % 256, off / 256 % 256] ++ (write_lsic_tail E ++ rest)))) := by
    rw [group_bytes]
    simp [List.append_assoc]
  rw [hshape, decompress_loop_cons, (group_token_bits lits.length E).1,
    read_lsic_write_min]
  dsimp only
  have hnl : ¬ ((lits ++ ([off % 256, off / 256 % 256] ++
      (write_lsic_tail E ++ rest))).length < lits.length) := by
    rw [List.length_append]
    omega
  rw [if_neg hnl, List.take_left, List.drop_left]
  show (match read_lsic (write_lsic_head (write_lsic_head 0 4 lits.length) 0 E
      &&& 0xF) (write_lsic_tail E ++ rest) with
    | none => (out ++ lits, some DecodeError.UnexpectedEnd)
    | some (extra, rest3) =>
      if lim < (out ++ lits).length + (4 + extra) then
        (out ++ lits, some DecodeError.MemoryLimitExceeded)
      else
        match copy_overlapping (off % 256 + 256 * (off / 256 % 256))
            (4 + extra) pfx (out ++ lits) with
        | (output2, none) => decompress_loop fuel rest3 pfx output2 lim
        | (output2, some e) => (output2, some e)) = _
  rw [(group_token_bits lits.length E).2, read_lsic_write_min]
  have hoffeq : off % 256 + 256 * (off / 256 % 256) = off := by omega
  have hnlim : ¬ (lim < (out ++ lits).length + (4 + E)) := by
    rw [List.length_append]
    omega
  rw [hoffeq]
  dsimp only
  rw [if_neg hnlim,
    copy_eq_dedup off (4 + E) pfx (out ++ lits) hoff1
      (by rw [List.length_append]; omega)]

/-! ### Claim C4: decoder termination -/

theorem read_lsic_go_ff_none : ∀ (k acc : Nat),
    read_lsic_go (List.replicate k 0xFF) acc = none := by
  intro k
  induction k with
  | zero => intro acc; rfl
  | succ k ih =>
    intro acc
    rw [List.replicate_succ, read_lsic_go_ff]
    exact ih _

/-- Input ending while reading the declared literal bytes: the output has
already been resized, and `UnexpectedEnd` is thrown. -/
theorem decode_literal_truncated (fuel L : Nat) (litsp pfx out : List Nat)
    (lim : Nat) (hlt : litsp.length < L) :
    decompress_loop (fuel + 1)
      (write_lsic_head 0 4 L :: (write_lsic_tail L ++ litsp)) pfx out lim
      = (out ++ litsp ++ List.replicate (L - litsp.length) 0,
        some DecodeError.UnexpectedEnd) := by
  rw [decompress_loop_cons, (tail_token_bits L).1, read_lsic_write_min]
  dsimp only
  rw [if_pos hlt]

/-- Input ending inside the literal-length LSIC extension. -/
theorem decode_lsic_truncated_literal (fuel k : Nat) (pfx out : List Nat)
    (lim : Nat) :
    decompress_loop (fuel + 1) (0xF0 :: List.replicate k 0xFF) pfx out lim
      = (out, some DecodeError.UnexpectedEnd) := by
  rw [decompress_loop_cons]
  have h1 : (0xF0 : Nat) >>> 4 = 0xF := by decide
  rw [h1, read_lsic, if_pos rfl, read_lsic_go_ff_none]

/-- Input ending inside the match-length LSIC extension (after a complete
literal run and 2-byte offset). -/
theorem decode_lsic_truncated_match (fuel k b0 b1 : Nat) (pfx out : List Nat)
    (lim : Nat) :
    decompress_loop (fuel + 1) (0x0F :: b0 :: b1 :: List.replicate k 0xFF)
      pfx out lim = (out, some DecodeError.UnexpectedEnd) := by
  rw [decompress_loop_cons]
  have h1 : (0x0F : Nat) >>> 4 = 0 := by decide
  rw [h1, read_lsic, if_neg (by decide)]
  dsimp only
  rw [if_neg (by omega), List.drop_zero]
  dsimp only
  have h2 : (0x0F : Nat) &&& 0xF = 0xF := by decide
  rw [h2, read_lsic, if_pos rfl, read_lsic_go_ff_none]
  dsimp only
  rw [List.take_zero, List.append_nil]

/-- **C4**: the decoder terminates cleanly when the input ends exactly
before a token byte or exactly before the 2-byte match offset of a
literal-only last sequence, and returns `UnexpectedEnd` when the input ends
while reading the declared literal bytes or inside an LSIC extension
(whether of the literal length or the match length). -/
theorem decoder_termination :
    (∀ pfx out lim, decompress_raw [] pfx out lim = (out, none)) ∧
    (∀ lits pfx out lim,
      decompress_raw (tail_bytes lits) pfx out lim = (out ++ lits, none)) ∧
    (∀ L litsp pfx out lim, litsp.length < L →
      decompress_raw (write_lsic_head 0 4 L :: (write_lsic_tail L ++ litsp))
        pfx out lim
        = (out ++ litsp ++ List.replicate (L - litsp.length) 0,
          some DecodeError.UnexpectedEnd)) ∧
    (∀ k pfx out lim,
      decompress_raw (0xF0 :: List.replicate k 0xFF) pfx out lim
        = (out, some DecodeError.UnexpectedEnd)) ∧
    (∀ k b0 b1 pfx out lim,
      decompress_raw (0x0F :: b0 :: b1 :: List.replicate k 0xFF) pfx out lim
        = (out, some DecodeError.UnexpectedEnd)) := by
  refine ⟨fun _ _ _ => rfl, fun lits pfx out lim => ?_,
    fun L litsp pfx out lim h => ?_, fun k pfx out lim => ?_,
    fun k b0 b1 pfx out lim => ?_⟩
  · rw [decompress_raw]
    exact decode_tail_group _ lits pfx out lim
  · rw [decompress_raw]
    exact decode_literal_truncated _ L litsp pfx out lim h
  · rw [decompress_raw]
    exact decode_lsic_truncated_literal _ k pfx out lim
  · rw [decompress_raw]
    exact decode_lsic_truncated_match _ k b0 b1 pfx out lim

/-- Witness for C4: a truncated 2-literal run produces `UnexpectedEnd` with
the resized buffer, and a complete literal-only sequence decodes cleanly. -/
theorem decoder_termination_witness :
    decompress_raw (write_lsic_head 0 4 2 :: (write_lsic_tail 2 ++ [97]))
      [] [] 1000
      = ([] ++ [97] ++ List.replicate (2 - [97].length) 0,
        some DecodeError.UnexpectedEnd) ∧
    decompress_raw (tail_bytes [97, 98]) [] [] 1000 = ([] ++ [97, 98], none) :=
  ⟨decoder_termination.2.2.1 2 [97] [] [] 1000 (by decide),
    decoder_termination.2.1 [97, 98] [] [] 1000⟩

/-! ### Claim C1: raw round-trip -/

/-- Soundness of the backtrack count: it never reaches past the literal
start, the beginning of the input, or the candidate, and every counted pair
of bytes matches. -/
theorem backtrack_count_sound (input : List Nat) (cursor cand mb : Nat)
    (hcur : cursor ≤ input.length) (hcand : cand ≤ input.length) :
    backtrack_count input cursor cand mb ≤ cursor ∧
    backtrack_count input cursor cand mb ≤ cand ∧
    ∀ j, j < backtrack_count input cursor cand mb →
      input.getD (cursor - 1 - j) 0 = input.getD (cand - 1 - j) 0 := by
  have hlcur : (input.take cursor).length = cursor := by
    rw [List.length_take]
    omega
  have hlcand : (input.take cand).length = cand := by
    rw [List.length_take]
    omega
  have hzlen : ((input.take cursor).reverse.zip (input.take cand).reverse).length
      = min cursor cand := by
    rw [List.length_zip, List.length_reverse, List.length_reverse, hlcur,
      hlcand]
  have hble : backtrack_count input cursor cand mb ≤ min cursor cand := by
    have h1 := takeWhile_length_le (fun p : Nat × Nat => p.1 == p.2)
      (((input.take cursor).reverse.zip (input.take cand).reverse).take mb)
    have h2 : ((((input.take cursor).reverse.zip
        (input.take cand).reverse)).take mb).length ≤ min cursor cand := by
      rw [List.length_take, hzlen]
      omega
    exact le_trans h1 h2
  refine ⟨by omega, by omega, ?_⟩
  intro j hj
  obtain ⟨⟨x, y⟩, hxy, hp⟩ := takeWhile_sound (fun p : Nat × Nat => p.1 == p.2)
    (((input.take cursor).reverse.zip (input.take cand).reverse).take mb) j hj
  have hjmb : j < mb := by
    have := backtrack_count_le input cursor cand mb
    omega
  rw [List.getElem?_take_of_lt hjmb, List.getElem?_zip_eq_some] at hxy
  obtain ⟨hx, hy⟩ := hxy
  have hjcur : j < cursor := by omega
  have hjcand : j < cand := by omega
  rw [List.getElem?_reverse (by omega : j < (input.take cursor).length),
    hlcur, List.getElem?_take_of_lt (by omega : cursor - 1 - j < cursor)]
    at hx
  rw [List.getElem?_reverse (by omega : j < (input.take cand).length),
    hlcand, List.getElem?_take_of_lt (by omega : cand - 1 - j < cand)] at hy
  simp only [beq_iff_eq] at hp
  rw [List.getD_eq_getElem?_getD, List.getD_eq_getElem?_getD, hx, hy]
  simpa using hp

/-- Every byte counted by the encoder's match check is equal between the
match target (at the cursor) and the match source (at the candidate). -/
theorem match_source_eq (input : List Nat) (hbytes : ∀ x ∈ input, x < 256)
    (cursor cand : Nat) (h12 : cursor + 12 ≤ input.length) :
    ∀ i, i < count_matching_bytes ((input.take (input.length - 5)).drop cursor)
        (input.drop cand) →
      input.getD (cursor + i) 0 = input.getD (cand + i) 0 := by
  intro i hi
  have hlena := current_batch_length input cursor h12
  have hmle := count_matching_le ((input.take (input.length - 5)).drop cursor)
    (input.drop cand)
  rw [hlena] at hmle
  have hsound := count_matching_sound
    ((input.take (input.length - 5)).drop cursor) (input.drop cand)
    (fun x hx => hbytes x (List.take_subset _ _ (List.drop_subset _ _ hx)))
    (fun x hx => hbytes x (List.drop_subset _ _ hx)) i hi
  have ha : ((input.take (input.length - 5)).drop cursor).getD i 0
      = input.getD (cursor + i) 0 := by
    rw [List.getD_eq_getElem?_getD, List.getElem?_drop,
      List.getElem?_take_of_lt (by omega), ← List.getD_eq_getElem?_getD]
  have hb : (input.drop cand).getD i 0 = input.getD (cand + i) 0 := by
    rw [List.getD_eq_getElem?_getD, List.getElem?_drop,
      ← List.getD_eq_getElem?_getD]
  rw [← ha, ← hb]
  exact hsound

theorem replace_fst (t : U32Table) (input : List Nat) (p : Nat) :
    (t.replace input p).1 = t.dict (hash_for_u32 (input.drop p)) - t.offset :=
  rfl

theorem replace_snd_offset (t : U32Table) (input : List Nat) (p : Nat) :
    (t.replace input p).2.offset = t.offset := rfl

theorem replace_snd_dict (t : U32Table) (input : List Nat) (p : Nat) :
    ∀ h, (t.replace input p).2.dict h = p + t.offset ∨
      (t.replace input p).2.dict h = t.dict h := by
  intro h
  rw [U32Table.replace]
  by_cases he : h = hash_for_u32 (input.drop p)
  · exact Or.inl (by simp [he])
  · exact Or.inr (by simp [he])

/-! ### Claim C10: empty-input edge case -/

/-- **C10**: compressing an empty input with `compress2` emits no bytes at
all (the sink is returned untouched, with an empty trace), and decompressing
an empty block succeeds and leaves the output buffer unchanged. -/
theorem empty_input_edge :
    compress_raw [] = [] ∧
    compress2 [] 0 U32Table.default ⟨[], none⟩ = some (⟨[], none⟩, []) ∧
    ∀ pfx output limit, decompress_raw [] pfx output limit = (output, none) :=
  ⟨rfl, rfl, fun _ _ _ => rfl⟩

/-- The heart of the raw round-trip: under the encoder's loop invariants
(hash-table entries point strictly below the cursor, base offset zero,
initial cursor zero, unbounded sink), the bytes appended by `compress_loop`
decompress, on top of the already-encoded prefix of the input, to exactly
the whole input. -/
theorem compress_roundtrip_loop (input : List Nat)
    (hbytes : ∀ x ∈ input, x < 256) (lim : Nat) (hlim : input.length ≤ lim) :
    ∀ (fuel ls cursor step sc : Nat) (table : U32Table) (d : List Nat),
      input.length - cursor < fuel →
      ls ≤ cursor → ls ≤ input.length → 1 ≤ step → 2 ^ 6 ≤ sc →
      table.offset = 0 →
      (∀ h', table.dict h' = 0 ∨ table.dict h' < cursor) →
      ∃ bs tr,
        compress_loop input fuel ls cursor step sc 0 table ⟨d, none⟩
          = some (⟨d ++ bs, none⟩, tr) ∧
        ∀ dfuel, bs.length < dfuel →
          decompress_loop dfuel bs [] (input.take ls) lim = (input, none) := by
  intro fuel
  induction fuel with
  | zero => intro ls cursor step sc table d hf _ _ _ _ _ _; omega
  | succ fuel ih =>
    intro ls cursor step sc table d hf hls hlsi hstep hsc hoff hsound
    by_cases hc : input.length - cursor < 12
    · refine ⟨tail_bytes ((input.drop ls).take (input.length - ls)),
        [⟨ls, input.length, none⟩],
        compress_loop_tail_none input fuel ls cursor step sc 0 table d hc, ?_⟩
      intro dfuel hdf
      obtain ⟨k, rfl⟩ : ∃ k, dfuel = k + 1 := ⟨dfuel - 1, by omega⟩
      rw [decode_tail_group]
      have hdl : (input.drop ls).take (input.length - ls) = input.drop ls := by
        have h1 : (input.drop ls).length = input.length - ls := by
          rw [List.length_drop]
        rw [← h1, List.take_length]
      rw [hdl, List.take_append_drop]
    · by_cases hacc : cursor ≠ 0 ∧ (table.replace input cursor).1 ≤ cursor ∧
          cursor - (table.replace input cursor).1 ≤ 0xFFFF ∧
          MINMATCH ≤ count_matching_bytes
            ((input.take (input.length - 5)).drop cursor)
            (input.drop (table.replace input cursor).1)
      · rw [compress_loop_commit input fuel ls cursor step sc 0 table _ hc
          (table.replace input cursor).1
          (count_matching_bytes ((input.take (input.length - 5)).drop cursor)
            (input.drop (table.replace input cursor).1))
          (backtrack_count input cursor (table.replace input cursor).1
            (cursor - ls)) rfl rfl rfl hacc]
        set cand := (table.replace input cursor).1 with hcand
        set m := count_matching_bytes
          ((input.take (input.length - 5)).drop cursor) (input.drop cand)
          with hmdef
        set bt := backtrack_count input cursor cand (cursor - ls) with hbtdef
        simp only [write_group_none]
        have hMM : (MINMATCH : Nat) = 4 := rfl
        have hm4 : MINMATCH ≤ m := hacc.2.2.2
        have hc0 : cursor ≠ 0 := hacc.1
        have hcurlen : cursor + 12 ≤ input.length := by omega
        have hcval : cand = table.dict (hash_for_u32 (input.drop cursor)) := by
          rw [hcand, replace_fst, hoff, Nat.sub_zero]
        have hcandlt : cand < cursor := by
          rcases hsound (hash_for_u32 (input.drop cursor)) with h0 | hlt
          · rw [hcval, h0]
            omega
          · omega
        have hmle := count_matching_le
          ((input.take (input.length - 5)).drop cursor) (input.drop cand)
        rw [← hmdef, current_batch_length input cursor hcurlen] at hmle
        have hm5 : cursor + m ≤ input.length - 5 := by omega
        obtain ⟨hbtc, hbtcand, hbteq⟩ := backtrack_count_sound input cursor
          cand (cursor - ls) (by omega) (by omega)
        rw [← hbtdef] at hbtc hbtcand hbteq
        have hbtls := backtrack_count_le input cursor cand (cursor - ls)
        rw [← hbtdef] at hbtls
        have hoff1 : 1 ≤ cursor - cand := by omega
        have hoff16 : cursor - cand ≤ 0xFFFF := hacc.2.2.1
        have hoffle2 : cursor - cand ≤ (input.take ls).length +
            ((input.drop ls).take
              (cursor + m - (m - MINMATCH + bt) - MINMATCH - ls)).length := by
          rw [List.length_take, List.length_take, List.length_drop]
          omega
        have hlim2 : (input.take ls).length +
            ((input.drop ls).take
              (cursor + m - (m - MINMATCH + bt) - MINMATCH - ls)).length +
            (4 + (m - MINMATCH + bt)) ≤ lim := by
          rw [List.length_take, List.length_take, List.length_drop]
          omega
        have htake : input.take ls ++ (input.drop ls).take
            (cursor + m - (m - MINMATCH + bt) - MINMATCH - ls)
            = input.take (cursor - bt) := by
          have he : ls + (cursor + m - (m - MINMATCH + bt) - MINMATCH - ls)
              = cursor - bt := by omega
          rw [← List.take_add, he]
        have hdedup4 : ∀ i, i < 4 + (m - MINMATCH + bt) →
            input.getD (cursor - bt - (cursor - cand) + i) 0
              = input.getD (cursor - bt + i) 0 := by
          intro i hi
          by_cases hib : i < bt
          · have hj := hbteq (bt - 1 - i) (by omega)
            have e1 : cursor - 1 - (bt - 1 - i) = cursor - bt + i := by omega
            have e2 : cand - 1 - (bt - 1 - i) = cand - bt + i := by omega
            have e3 : cursor - bt - (cursor - cand) + i = cand - bt + i := by
              omega
            rw [e1, e2] at hj
            rw [e3]
            exact hj.symm
          · have hms := match_source_eq input hbytes cursor cand (by omega)
              (i - bt) (by rw [← hmdef]; omega)
            have e3 : cursor - bt - (cursor - cand) + i = cand + (i - bt) := by
              omega
            have e4 : cursor - bt + i = cursor + (i - bt) := by omega
            rw [e3, e4]
            exact hms.symm
        have hdedup := dedup_spec_take input (4 + (m - MINMATCH + bt))
          (cursor - bt) (cursor - cand) hoff1 (by omega) (by omega) hdedup4
        have hfin : cursor - bt + (4 + (m - MINMATCH + bt)) = cursor + m := by
          omega
        rw [hfin] at hdedup
        have hsound2 : ∀ h', (((table.replace input cursor).2.replace input
            (cursor + m - 2)).2).dict h' = 0 ∨
            (((table.replace input cursor).2.replace input
              (cursor + m - 2)).2).dict h' < cursor + m := by
          intro h'
          rcases replace_snd_dict (table.replace input cursor).2 input
            (cursor + m - 2) h' with h1 | h1
          · rw [h1, replace_snd_offset, hoff]
            right
            omega
          · rcases replace_snd_dict table input cursor h' with h2 | h2
            · rw [h1, h2, hoff]
              right
              omega
            · rcases hsound h' with h3 | h3
              · rw [h1, h2]
                left
                exact h3
              · rw [h1, h2]
                right
                omega
        obtain ⟨bs', tr', hrec, hdec⟩ := ih (cursor + m) (cursor + m) 1
          (1 <<< 6)
          (((table.replace input cursor).2.replace input (cursor + m - 2)).2)
          (d ++ group_bytes
            ((input.drop ls).take
              (cursor + m - (m - MINMATCH + bt) - MINMATCH - ls))
            (cursor - cand) (m - MINMATCH + bt))
          (by omega) (le_refl _) (by omega) (le_refl 1) (by decide)
          (by rw [replace_snd_offset, replace_snd_offset]; exact hoff) hsound2
        rw [hrec]
        refine ⟨group_bytes
            ((input.drop ls).take
              (cursor + m - (m - MINMATCH + bt) - MINMATCH - ls))
            (cursor - cand) (m - MINMATCH + bt) ++ bs',
          ⟨ls, cursor + m - (m - MINMATCH + bt) - MINMATCH,
            some ⟨cursor - cand, m - MINMATCH + bt, cursor, cand, m, bt⟩⟩ :: tr',
          ?_, ?_⟩
        · dsimp only
          rw [List.append_assoc]
        · intro dfuel hdf
          obtain ⟨k, rfl⟩ : ∃ k, dfuel = k + 1 := ⟨dfuel - 1, by omega⟩
          rw [decode_group_step k
            ((input.drop ls).take
              (cursor + m - (m - MINMATCH + bt) - MINMATCH - ls))
            [] (input.take ls) bs' (cursor - cand) (m - MINMATCH + bt) lim
            hoff1 hoffle2 hoff16 hlim2]
          rw [htake, hdedup]
          apply hdec
          have hg : group_bytes
              ((input.drop ls).take
                (cursor + m - (m - MINMATCH + bt) - MINMATCH - ls))
              (cursor - cand) (m - MINMATCH + bt) ≠ [] := by
            rw [group_bytes]
            exact List.cons_ne_nil _ _
          have hgl := List.length_pos.mpr hg
          rw [List.length_append] at hdf
          omega
      · rw [compress_loop_skip input fuel ls cursor step sc 0 table _ hc hacc]
        apply ih
        · omega
        · omega
        · exact hlsi
        · rw [Nat.shiftRight_eq_div_pow]
          omega
        · split <;> omega
        · rw [replace_snd_offset]
          exact hoff
        · intro h'
          rcases replace_snd_dict table input cursor h' with h1 | h1
          · rw [h1, hoff]
            right
            omega
          · rcases hsound h' with h2 | h2
            · rw [h1]
              left
              exact h2
            · rw [h1]
              right
              omega

/-- **C1**: raw round-trip — for every byte sequence `s` within the
encoder's size limit, compressing `s` with the raw encoder (`compress2`
over a fresh hash table, cursor 0) and decompressing the resulting block
with `decompress_raw` (empty prefix, empty initial output, any output
limit of at least `s.length`) yields exactly `s` with no error. -/
theorem raw_roundtrip (s : List Nat) (hbytes : ∀ b ∈ s, b < 256)
    (hsize : s.length ≤ U32Table.payload_size_limit) (lim : Nat)
    (hlim : s.length ≤ lim) :
    decompress_raw (compress_raw s) [] [] lim = (s, none) := by
  by_cases hpos : 0 < s.length
  · obtain ⟨bs, tr, hcomp, hdec⟩ := compress_roundtrip_loop s hbytes lim hlim
      (s.length + 1) 0 0 1 (1 <<< 6) U32Table.default []
      (by omega) (le_refl 0) (by omega) (le_refl 1) (by decide) rfl
      (fun h' => Or.inl rfl)
    have hcraw : compress_raw s = bs := by
      rw [compress_raw, compress2,
        if_neg (by omega : ¬ U32Table.payload_size_limit < s.length),
        if_pos hpos, hcomp]
      simp
    rw [hcraw, decompress_raw]
    have hd := hdec (bs.length + 1) (by omega)
    rw [List.take_zero] at hd
    exact hd
  · have hs : s = [] := List.eq_nil_of_length_eq_zero (by omega)
    subst hs
    rfl

theorem raw_roundtrip_witness :
    decompress_raw (compress_raw (List.replicate 17 97)) [] [] 17
      = (List.replicate 17 97, none) :=
  raw_roundtrip (List.replicate 17 97) (by decide) (by decide) 17 (by decide)

end LZFear
